import Mathlib

/- Verification of the OpenLogReplicator replication orchestrator
   (`Replicator.cpp`, the RAC-aware redo-log orchestrator).

   The embedding models, faithfully to the C++ source:
   * the SCN watermark computation `Replicator::updateScnWatermark`,
   * watermark-gated emission `Replicator::emitWatermarkedTransactions`,
   * archive interleaving `Replicator::pickNextArchiveThread`,
   * archive discovery filtering and stale-entry cleanup,
   * the RAC online loop's throttle rule and termination flush,
   * the archive-open retry loop,
   * path mapping `Replicator::applyMapping`,
   * incarnation handling `Replicator::updateResetlogs`.

   `Scn` and `Seq` are wrapper classes over 64/32-bit integers with a
   distinguished unknown value; they are modelled as `Option Nat`
   (`none` = the unknown `Scn::none()` / `Seq::none()` marker, `some v`
   = a concrete value; `Seq::zero()` = `some 0`). -/

namespace OLR

/-- System change number with the distinguished `Scn::none()` unknown value. -/
abbrev Scn := Option Nat

/-- Per-thread redo sequence number with the distinguished `Seq::none()`
unknown value; `Seq::zero()` is `some 0`. -/
abbrev Seq := Option Nat

/-- Modelled from the spec: the `CommittedTransaction` entries of
`TransactionBuffer::committedPending` are not under `src/`; spec section 4.2
(deferred mode) gives the shape `CommittedTransaction{xid, commitScn, lwnScn,
thread, rollback, shutdownMarker, pointer}`.  The XID triple
`(undoSegment, slot, wrap)` is collapsed to a single `Nat` ordered the same
way; the transaction payload pointer is irrelevant to ordering and omitted. -/
structure CommittedTransaction where
  xid : Nat
  commitScn : Nat
  lwnScn : Nat
  thread : Nat
  rollback : Bool
  shutdownMarker : Bool
deriving Repr, DecidableEq

/-- The emission sort key `(commitScn, thread, xid)`. -/
def ctKey (c : CommittedTransaction) : Nat × Nat × Nat :=
  (c.commitScn, c.thread, c.xid)

/-- Strict lexicographic order on `(commitScn, thread, xid)` keys. -/
def keyLt (a b : Nat × Nat × Nat) : Prop :=
  a.1 < b.1 ∨ (a.1 = b.1 ∧ (a.2.1 < b.2.1 ∨ (a.2.1 = b.2.1 ∧ a.2.2 < b.2.2)))

instance : DecidableRel keyLt := fun a b => by unfold keyLt; infer_instance

/-- Strict emission order on committed transactions. -/
def ctLt (a b : CommittedTransaction) : Prop := keyLt (ctKey a) (ctKey b)

instance : DecidableRel ctLt := fun a b => by unfold ctLt; infer_instance

/-- Reflexive emission order on committed transactions. -/
def ctLe (a b : CommittedTransaction) : Prop :=
  keyLt (ctKey a) (ctKey b) ∨ ctKey a = ctKey b

instance : DecidableRel ctLe := fun a b => by unfold ctLe; infer_instance

theorem keyLt_trans {a b c : Nat × Nat × Nat} (h1 : keyLt a b) (h2 : keyLt b c) :
    keyLt a c := by
  unfold keyLt at h1 h2 ⊢
  rcases h1 with h1 | ⟨e1, h1⟩
  · rcases h2 with h2 | ⟨e2, h2⟩
    · exact Or.inl (h1.trans h2)
    · exact Or.inl (e2 ▸ h1)
  · rcases h2 with h2 | ⟨e2, h2⟩
    · exact Or.inl (e1 ▸ h2)
    · refine Or.inr ⟨e1.trans e2, ?_⟩
      rcases h1 with h1 | ⟨f1, h1⟩
      · rcases h2 with h2 | ⟨f2, h2⟩
        · exact Or.inl (h1.trans h2)
        · exact Or.inl (f2 ▸ h1)
      · rcases h2 with h2 | ⟨f2, h2⟩
        · exact Or.inl (f1 ▸ h2)
        · exact Or.inr ⟨f1.trans f2, h1.trans h2⟩

theorem keyLt_total (a b : Nat × Nat × Nat) : keyLt a b ∨ keyLt b a ∨ a = b := by
  unfold keyLt
  rcases Nat.lt_trichotomy a.1 b.1 with h | h | h
  · exact Or.inl (Or.inl h)
  · rcases Nat.lt_trichotomy a.2.1 b.2.1 with g | g | g
    · exact Or.inl (Or.inr ⟨h, Or.inl g⟩)
    · rcases Nat.lt_trichotomy a.2.2 b.2.2 with f | f | f
      · exact Or.inl (Or.inr ⟨h, Or.inr ⟨g, f⟩⟩)
      · refine Or.inr (Or.inr ?_)
        rcases a with ⟨a1, a2, a3⟩; rcases b with ⟨b1, b2, b3⟩
        simp_all
      · exact Or.inr (Or.inl (Or.inr ⟨h.symm, Or.inr ⟨g.symm, f⟩⟩))
    · exact Or.inr (Or.inl (Or.inr ⟨h.symm, Or.inl g⟩))
  · exact Or.inr (Or.inl (Or.inl h))

instance : IsTrans CommittedTransaction ctLe where
  trans a b c h1 h2 := by
    unfold ctLe at h1 h2 ⊢
    rcases h1 with h1 | h1
    · rcases h2 with h2 | h2
      · exact Or.inl (keyLt_trans h1 h2)
      · exact Or.inl (h2 ▸ h1)
    · rcases h2 with h2 | h2
      · exact Or.inl (h1 ▸ h2)
      · exact Or.inr (h1.trans h2)

instance : IsTotal CommittedTransaction ctLe where
  total a b := by
    unfold ctLe
    rcases keyLt_total (ctKey a) (ctKey b) with h | h | h
    · exact Or.inl (Or.inl h)
    · exact Or.inr (Or.inl h)
    · exact Or.inl (Or.inr h)

/-- Modelled from the spec: `TransactionBuffer::drainPendingBelow` is not under
`src/`.  Spec section 4.4.7: emission "drains `committedPending` to a list of
items with `commitScn ≤ watermark`, sorts by `commitScn` (ties by thread then
XID)"; spec section 4.3 gives the signature
`drainPendingBelow(watermark) → sorted vector<CommittedTransaction>`.
Returns the drained (sorted) items and the remaining pending queue. -/
def drainPendingBelow (pending : List CommittedTransaction) (watermark : Nat) :
    List CommittedTransaction × List CommittedTransaction :=
  let part := pending.partition (fun c => c.commitScn ≤ watermark)
  (List.insertionSort ctLe part.1, part.2)

/-- A parser as seen by the watermark computation: `Parser::firstScn` and
`Parser::nextScn` (set by the reader from the redo file header; `none` until
the log is sealed). -/
structure OnlineParser where
  firstScn : Scn
  nextScn : Scn
deriving Repr, DecidableEq

/-- Per-thread state of the RAC online loop
(`Replicator::onlineThreadStates`): the bound parser, the SCN of the last
fully consumed LWN group, and the finished / yielded flags. -/
structure OnlineThreadState where
  activeParser : Option OnlineParser
  lastLwnScn : Scn
  finished : Bool
  yielded : Bool
deriving Repr, DecidableEq

/-- Running minimum used by `updateScnWatermark`:
`if (minScn == none || v < minScn) minScn = v`. -/
def optMin (acc : Option Nat) (v : Nat) : Option Nat :=
  match acc with
  | none => some v
  | some m => if v < m then some v else some m

/-- The watermark bound contributed by a finished thread:
`nextScn` of its active parser if known, else its `lastLwnScn`. -/
def finishedBound (st : OnlineThreadState) : Option Nat :=
  match st.activeParser with
  | none => none
  | some p =>
    match p.nextScn with
    | none => st.lastLwnScn
    | some v => some v

/-- Loop body of `Replicator::updateScnWatermark` over the per-thread states
(the `std::map` iteration order of `onlineThreadStates`).  Threads without an
active parser are skipped; a finished thread contributes `nextScn` if known
else `lastLwnScn` (nothing when neither is known); an unfinished thread with
unknown `lastLwnScn` forces the watermark to unknown immediately. -/
def updateScnWatermarkGo : Option Nat → List OnlineThreadState → Option Nat
  | minScn, [] => minScn
  | minScn, st :: rest =>
    match st.activeParser with
    | none => updateScnWatermarkGo minScn rest
    | some _ =>
      if st.finished then
        match finishedBound st with
        | none => updateScnWatermarkGo minScn rest
        | some b => updateScnWatermarkGo (optMin minScn b) rest
      else
        match st.lastLwnScn with
        | none => none
        | some l => updateScnWatermarkGo (optMin minScn l) rest

/-- `Replicator::updateScnWatermark` as a function of the per-thread states. -/
def updateScnWatermark (states : List OnlineThreadState) : Option Nat :=
  updateScnWatermarkGo none states

/-- State touched by `Replicator::emitWatermarkedTransactions`: the current
watermark, the deferred queue, and the sequence of transactions flushed so
far (each element of `emitted` stands for one `Transaction::flush` call, in
call order). -/
structure EmitState where
  scnWatermark : Scn
  pending : List CommittedTransaction
  emitted : List CommittedTransaction
deriving Repr, DecidableEq

/-- `Replicator::emitWatermarkedTransactions`: returns immediately when the
watermark is unknown, otherwise drains all pending items with
`commitScn ≤ watermark` in sorted order and flushes each
(metrics updates and shutdown fuses are side effects on collaborators and
are not part of the emission order). -/
def emitWatermarkedTransactions (s : EmitState) : EmitState :=
  match s.scnWatermark with
  | none => s
  | some w =>
    let dr := drainPendingBelow s.pending w
    { s with pending := dr.2, emitted := s.emitted ++ dr.1 }

/-- The per-thread watermark contribution as the spec words it
(spec section 4.4.7): nothing without an active parser; for a finished
thread `nextScn` if known else `lastLwnScn`; for an unfinished thread
`lastLwnScn`. -/
def specContribution (st : OnlineThreadState) : Option Nat :=
  match st.activeParser with
  | none => none
  | some _ => if st.finished then finishedBound st else st.lastLwnScn

/-- The watermark exactly as the spec's pseudocode states it: unknown as soon
as some unfinished thread with an active parser has no `lastLwnScn`,
otherwise the minimum of all per-thread contributions. -/
def specWatermark (states : List OnlineThreadState) : Option Nat :=
  if states.any (fun st => st.activeParser.isSome && !st.finished && st.lastLwnScn.isNone)
  then none
  else (states.filterMap specContribution).foldl optMin none

theorem updateScnWatermarkGo_eq (l : List OnlineThreadState) :
    ∀ acc : Option Nat,
      updateScnWatermarkGo acc l =
        if l.any (fun st => st.activeParser.isSome && !st.finished && st.lastLwnScn.isNone)
        then none
        else (l.filterMap specContribution).foldl optMin acc := by
  induction l with
  | nil => intro acc; simp [updateScnWatermarkGo]
  | cons st rest ih =>
    intro acc
    rcases hap : st.activeParser with _ | p
    · simp [updateScnWatermarkGo, hap, List.any_cons, specContribution, ih]
    · rcases hf : st.finished with _ | _
      · rcases hl : st.lastLwnScn with _ | lv
        · simp [updateScnWatermarkGo, hap, hf, hl, List.any_cons]
        · simp [updateScnWatermarkGo, hap, hf, hl, List.any_cons, specContribution, ih]
      · rcases hb : finishedBound st with _ | bv
        · simp [updateScnWatermarkGo, hap, hf, hb, List.any_cons, specContribution, ih]
        · simp [updateScnWatermarkGo, hap, hf, hb, List.any_cons, specContribution, ih]

/-- C3: `updateScnWatermark` computes exactly the specification's function:
the watermark is unknown as soon as a thread with an active parser is
unfinished with unknown `lastLwnScn`, and otherwise it is the minimum over
active threads of `lastLwnScn` for unfinished threads and of
(`nextScn` if known else `lastLwnScn`) for finished threads, finished
threads with neither value known contributing nothing. -/
theorem updateScnWatermark_eq_specWatermark (states : List OnlineThreadState) :
    updateScnWatermark states = specWatermark states := by
  unfold updateScnWatermark specWatermark
  exact updateScnWatermarkGo_eq states none

theorem optMin_spec (acc : Option Nat) (v : Nat) :
    ∃ x, optMin acc v = some x ∧ x ≤ v ∧ ∀ m, acc = some m → x ≤ m := by
  rcases acc with _ | m
  · exact ⟨v, rfl, Nat.le_refl v, fun m h => by cases h⟩
  · by_cases h : v < m
    · exact ⟨v, by simp [optMin, h], Nat.le_refl v,
        fun m' hm => by cases hm; exact Nat.le_of_lt h⟩
    · exact ⟨m, by simp [optMin, h], Nat.le_of_not_lt h,
        fun m' hm => by cases hm; exact Nat.le_refl m⟩

/-- When the watermark computation yields a known value `w`, then `w` is a
lower bound for the accumulator and for every per-thread contribution:
every unfinished active thread has a known `lastLwnScn ≥ w` and every
finished active thread with a known bound has that bound `≥ w`. -/
theorem updateScnWatermarkGo_le (l : List OnlineThreadState) :
    ∀ (acc : Option Nat) (w : Nat), updateScnWatermarkGo acc l = some w →
      (∀ m, acc = some m → w ≤ m) ∧
      ∀ st ∈ l, st.activeParser.isSome = true →
        (st.finished = false → ∃ lv, st.lastLwnScn = some lv ∧ w ≤ lv) ∧
        (st.finished = true → ∀ b, finishedBound st = some b → w ≤ b) := by
  induction l with
  | nil =>
    intro acc w h
    refine ⟨fun m hm => ?_, by simp⟩
    rw [updateScnWatermarkGo] at h
    rw [hm] at h; cases h; exact Nat.le_refl w
  | cons st rest ih =>
    intro acc w h
    rcases hap : st.activeParser with _ | p
    · simp only [updateScnWatermarkGo, hap] at h
      obtain ⟨hacc, hrest⟩ := ih acc w h
      refine ⟨hacc, ?_⟩
      intro st' hst' hap'
      rcases List.mem_cons.mp hst' with heq | hmem
      · rw [heq, hap] at hap'; cases hap'
      · exact hrest st' hmem hap'
    · rcases hf : st.finished with _ | _
      · rcases hl : st.lastLwnScn with _ | lv
        · simp only [updateScnWatermarkGo, hap, hf, hl] at h
          cases h
        · simp only [updateScnWatermarkGo, hap, hf, hl] at h
          obtain ⟨x, hx, hxv, hxacc⟩ := optMin_spec acc lv
          rw [hx] at h
          obtain ⟨hacc, hrest⟩ := ih (some x) w h
          have hwx : w ≤ x := hacc x rfl
          refine ⟨fun m hm => hwx.trans (hxacc m hm), ?_⟩
          intro st' hst' hap'
          rcases List.mem_cons.mp hst' with heq | hmem
          · subst heq
            refine ⟨fun _ => ⟨lv, hl, hwx.trans hxv⟩, fun hfin => ?_⟩
            rw [hf] at hfin; cases hfin
          · exact hrest st' hmem hap'
      · rcases hb : finishedBound st with _ | bv
        · simp only [updateScnWatermarkGo, hap, hf, hb] at h
          obtain ⟨hacc, hrest⟩ := ih acc w h
          refine ⟨hacc, ?_⟩
          intro st' hst' hap'
          rcases List.mem_cons.mp hst' with heq | hmem
          · subst heq
            refine ⟨fun hfin => ?_, fun _ b hbv => ?_⟩
            · rw [hf] at hfin; cases hfin
            · rw [hb] at hbv; cases hbv
          · exact hrest st' hmem hap'
        · simp only [updateScnWatermarkGo, hap, hf, hb] at h
          obtain ⟨x, hx, hxv, hxacc⟩ := optMin_spec acc bv
          rw [hx] at h
          obtain ⟨hacc, hrest⟩ := ih (some x) w h
          have hwx : w ≤ x := hacc x rfl
          refine ⟨fun m hm => hwx.trans (hxacc m hm), ?_⟩
          intro st' hst' hap'
          rcases List.mem_cons.mp hst' with heq | hmem
          · subst heq
            refine ⟨fun hfin => ?_, fun _ b hbv => ?_⟩
            · rw [hf] at hfin; cases hfin
            · rw [hb] at hbv; cases hbv; exact hwx.trans hxv
          · exact hrest st' hmem hap'

/-- Boolean form of the claim's watermark-safety condition for one emitted
`commitScn = s`: every thread with an active parser satisfies
`lastLwnScn ≥ s`, or is finished with a known bound `≥ s`. -/
def scnAtLeastB (o : Option Nat) (s : Nat) : Bool :=
  match o with
  | none => false
  | some v => s ≤ v

/-- The watermark-safety property exactly as the claim states it. -/
def claimWatermarkSafeB (states : List OnlineThreadState) (s : Nat) : Bool :=
  states.all fun st =>
    !st.activeParser.isSome ||
      (scnAtLeastB st.lastLwnScn s || (st.finished && scnAtLeastB (finishedBound st) s))

/-- A state with thread 1 unfinished at `lastLwnScn = 5` and thread 2
finished with neither `nextScn` nor `lastLwnScn` known. -/
def cexStates : List OnlineThreadState :=
  [{ activeParser := some { firstScn := none, nextScn := none },
     lastLwnScn := some 5, finished := false, yielded := false },
   { activeParser := some { firstScn := none, nextScn := none },
     lastLwnScn := none, finished := true, yielded := false }]

/-- A committed transaction with `commitScn = 5` on thread 1. -/
def cexCt : CommittedTransaction :=
  { xid := 1, commitScn := 5, lwnScn := 5, thread := 1,
    rollback := false, shutdownMarker := false }

/-- C2 counterexample: a finished thread whose active parser has unknown
`nextScn` and whose `lastLwnScn` is unknown contributes nothing to the
watermark, so the transaction at `commitScn = 5` is emitted even though that
thread satisfies neither disjunct of the claim (`lastLwnScn ≥ 5`, nor
finished with bound `≥ 5`). -/
theorem emit_watermark_claim_counterexample :
    updateScnWatermark cexStates = some 5 ∧
    (emitWatermarkedTransactions
      { scnWatermark := updateScnWatermark cexStates,
        pending := [cexCt], emitted := [] }).emitted = [cexCt] ∧
    cexCt.commitScn = 5 ∧
    claimWatermarkSafeB cexStates 5 = false := by decide

/-- C2 amended: when the watermark is known every emitted transaction has
`commitScn ≤ watermark`, every unfinished thread with an active parser has a
known `lastLwnScn ≥ commitScn`, and every finished thread with an active
parser whose bound (`nextScn` if known else `lastLwnScn`) is known has that
bound `≥ commitScn` (finished threads with no known bound impose no
constraint); and nothing is emitted when the watermark is unknown. -/
theorem emit_watermark_safety (states : List OnlineThreadState)
    (pending emitted : List CommittedTransaction) (w : Nat)
    (hw : updateScnWatermark states = some w) :
    (∀ c ∈ (emitWatermarkedTransactions
        { scnWatermark := updateScnWatermark states,
          pending := pending, emitted := emitted }).emitted,
      c ∈ emitted ∨
        (c.commitScn ≤ w ∧
         ∀ st ∈ states, st.activeParser.isSome = true →
           (st.finished = false → ∃ lv, st.lastLwnScn = some lv ∧ c.commitScn ≤ lv) ∧
           (st.finished = true → ∀ b, finishedBound st = some b → c.commitScn ≤ b))) ∧
    (∀ states' : List OnlineThreadState, updateScnWatermark states' = none →
      ∀ es : EmitState, es.scnWatermark = updateScnWatermark states' →
        emitWatermarkedTransactions es = es) := by
  constructor
  · intro c hc
    rw [hw] at hc
    simp only [emitWatermarkedTransactions, drainPendingBelow, List.mem_append] at hc
    rcases hc with hc | hc
    · exact Or.inl hc
    · right
      have hcin : c ∈ (pending.partition fun c => c.commitScn ≤ w).1 :=
        (List.perm_insertionSort ctLe _).mem_iff.mp hc
      rw [List.partition_eq_filter_filter] at hcin
      have hcw : c.commitScn ≤ w := by
        have := List.of_mem_filter hcin
        exact of_decide_eq_true this
      refine ⟨hcw, ?_⟩
      intro st hst hap
      obtain ⟨-, hbounds⟩ := updateScnWatermarkGo_le states none w hw
      obtain ⟨h1, h2⟩ := hbounds st hst hap
      refine ⟨fun hf => ?_, fun hf b hb => hcw.trans ((h2 hf) b hb)⟩
      obtain ⟨lv, hlv, hwlv⟩ := h1 hf
      exact ⟨lv, hlv, hcw.trans hwlv⟩
  · intro states' hn es hes
    rw [hn] at hes
    unfold emitWatermarkedTransactions
    rw [hes]

/-- Witness state for the amended watermark-safety theorem: one unfinished
thread at `lastLwnScn = 10`. -/
def wmStates : List OnlineThreadState :=
  [{ activeParser := some { firstScn := none, nextScn := none },
     lastLwnScn := some 10, finished := false, yielded := false }]

/-- Witness transaction with `commitScn = 7`. -/
def wmCt : CommittedTransaction :=
  { xid := 2, commitScn := 7, lwnScn := 10, thread := 1,
    rollback := false, shutdownMarker := false }

theorem emit_watermark_safety_witness :
    updateScnWatermark wmStates = some 10 ∧
    ((∀ c ∈ (emitWatermarkedTransactions
        { scnWatermark := updateScnWatermark wmStates,
          pending := [wmCt], emitted := [] }).emitted,
      c ∈ ([] : List CommittedTransaction) ∨
        (c.commitScn ≤ 10 ∧
         ∀ st ∈ wmStates, st.activeParser.isSome = true →
           (st.finished = false → ∃ lv, st.lastLwnScn = some lv ∧ c.commitScn ≤ lv) ∧
           (st.finished = true → ∀ b, finishedBound st = some b → c.commitScn ≤ b))) ∧
    (∀ states' : List OnlineThreadState, updateScnWatermark states' = none →
      ∀ es : EmitState, es.scnWatermark = updateScnWatermark states' →
        emitWatermarkedTransactions es = es)) :=
  ⟨by decide, emit_watermark_safety wmStates [wmCt] [] 10 (by decide)⟩

/-- Per-thread state of the RAC run model for the whole-run emission-order
property.  `lastLwnScn`, `nextScn` and `finished` mirror
`onlineThreadStates` together with the bound parser's `nextScn`; `hist` is a
history variable recording the largest SCN bound this thread has ever
published towards the watermark (it does not influence any computation). -/
structure RacThread where
  lastLwnScn : Scn
  nextScn : Scn
  finished : Bool
  hist : Scn

/-- Global state of the RAC online loop run model: the threads that still
have an active parser, their states, the deferred queue and the flushed
output sequence. -/
structure RacSys where
  live : List Nat
  threads : Nat → RacThread
  pending : List CommittedTransaction
  emitted : List CommittedTransaction

/-- The `OnlineThreadState` seen by `updateScnWatermark` for a live thread. -/
def racThreadState (th : RacThread) : OnlineThreadState :=
  { activeParser := some { firstScn := none, nextScn := th.nextScn },
    lastLwnScn := th.lastLwnScn, finished := th.finished, yielded := false }

/-- The watermark of the run model, computed by the embedded
`updateScnWatermark` over the live threads. -/
def racWatermark (s : RacSys) : Option Nat :=
  updateScnWatermark (s.live.map fun t => racThreadState (s.threads t))

/-- The post-pass emission step: `emitWatermarkedTransactions` at the current
watermark. -/
def racEmit (s : RacSys) : RacSys :=
  let es := emitWatermarkedTransactions
    { scnWatermark := racWatermark s, pending := s.pending, emitted := s.emitted }
  { s with pending := es.pending, emitted := es.emitted }

/-- Pointwise update of the thread map. -/
def setThread (f : Nat → RacThread) (t : Nat) (v : RacThread) : Nat → RacThread :=
  fun x => if x = t then v else f x

/-- Maximum of a known value and an optional previous bound. -/
def histMax (h : Scn) (v : Nat) : Scn :=
  match h with
  | none => some v
  | some x => some (max x v)

theorem histMax_spec (h : Scn) (v : Nat) :
    ∃ x, histMax h v = some x ∧ v ≤ x ∧ ∀ hv, h = some hv → hv ≤ x := by
  rcases h with _ | hv
  · exact ⟨v, rfl, Nat.le_refl v, fun hv h => by cases h⟩
  · exact ⟨max hv v, rfl, Nat.le_max_right hv v,
      fun hv' h => by cases h; exact Nat.le_max_left _ v⟩

/-- One step of the RAC online loop run model
(`Replicator::processOnlineRedoLogs`, multi-thread path).

* `produce`: one `parse()` call on an unfinished thread consumes further LWN
  groups, raising `lastLwnScn` monotonically (spec invariant 6) and
  appending freshly committed transactions to the deferred queue.  Each such
  commit lies inside the newly consumed groups (`commitScn ≤ L`) and, by the
  in-thread SCN order of redo together with invariant 4
  (`firstScn(seq n+1) ≥ nextScn(seq n)`), at or above every SCN bound the
  thread previously published (`hist`) — both guarantees are non-strict, so
  a later group may commit again at exactly the previous bound.  XIDs are
  unique (spec section 3).
* `finish`: `parse()` returned `Finished`; the sealed file header carries a
  known `nextScn` bounding the whole log from above.
* `logSwitch`: the finished thread is re-bound to the next online log, whose
  `nextScn` is unknown until sealed; `lastLwnScn` is retained.
* `emit`: the post-pass `emitWatermarkedTransactions`.
* `deactivate`: the thread drops out (no parser found after a log switch). -/
inductive RacStep : RacSys → RacSys → Prop
  | produce (s : RacSys) (t L : Nat) (cs : List CommittedTransaction)
      (ht : t ∈ s.live)
      (hnf : (s.threads t).finished = false)
      (hmono : ∀ l, (s.threads t).lastLwnScn = some l → l ≤ L)
      (hcs : ∀ c ∈ cs, c.thread = t ∧ c.commitScn ≤ L ∧
             ∀ hv, (s.threads t).hist = some hv → hv ≤ c.commitScn)
      (hnodup : (cs.map CommittedTransaction.xid).Nodup)
      (hfresh : ∀ c ∈ cs, ∀ d ∈ s.pending, c.xid ≠ d.xid) :
      RacStep s { s with
        threads := setThread s.threads t
          { lastLwnScn := some L, nextScn := (s.threads t).nextScn,
            finished := false, hist := histMax (s.threads t).hist L },
        pending := s.pending ++ cs }
  | finish (s : RacSys) (t n : Nat)
      (ht : t ∈ s.live)
      (hnf : (s.threads t).finished = false)
      (hmono : ∀ l, (s.threads t).lastLwnScn = some l → l ≤ n) :
      RacStep s { s with
        threads := setThread s.threads t
          { lastLwnScn := (s.threads t).lastLwnScn, nextScn := some n,
            finished := true, hist := histMax (s.threads t).hist n } }
  | logSwitch (s : RacSys) (t : Nat)
      (ht : t ∈ s.live)
      (hf : (s.threads t).finished = true) :
      RacStep s { s with
        threads := setThread s.threads t
          { lastLwnScn := (s.threads t).lastLwnScn, nextScn := none,
            finished := false, hist := (s.threads t).hist } }
  | emit (s : RacSys) : RacStep s (racEmit s)
  | deactivate (s : RacSys) (t : Nat) :
      RacStep s { s with live := s.live.erase t }

/-- Initial state of the RAC path: per-thread states are created with
unknown `lastLwnScn`, not finished, nothing pending or emitted. -/
def racInit (ts : List Nat) : RacSys :=
  { live := ts,
    threads := fun _ =>
      { lastLwnScn := none, nextScn := none, finished := false, hist := none },
    pending := [], emitted := [] }

/-- Run invariant: emitted output is non-decreasing in `commitScn`;
everything still pending is at or above everything emitted; every live
thread's published bound dominates everything emitted; pending XIDs are
distinct; `hist` dominates `lastLwnScn` and `nextScn`; finished live
threads have a known `nextScn`. -/
def RacInv (s : RacSys) : Prop :=
  List.Pairwise (fun a b : CommittedTransaction =>
    a.commitScn ≤ b.commitScn) s.emitted ∧
  (∀ e ∈ s.emitted, ∀ c ∈ s.pending, e.commitScn ≤ c.commitScn) ∧
  (∀ e ∈ s.emitted, ∀ t ∈ s.live,
     ∃ h, (s.threads t).hist = some h ∧ e.commitScn ≤ h) ∧
  (s.pending.map CommittedTransaction.xid).Nodup ∧
  (∀ t ∈ s.live, ∀ l, (s.threads t).lastLwnScn = some l →
     ∃ h, (s.threads t).hist = some h ∧ l ≤ h) ∧
  (∀ t ∈ s.live, ∀ n, (s.threads t).nextScn = some n →
     ∃ h, (s.threads t).hist = some h ∧ n ≤ h) ∧
  (∀ t ∈ s.live, (s.threads t).finished = true →
     ∃ n, (s.threads t).nextScn = some n)

theorem racInv_init (ts : List Nat) : RacInv (racInit ts) := by
  refine ⟨List.Pairwise.nil, by simp [racInit], by simp [racInit], by simp [racInit],
    ?_, ?_, ?_⟩
  · intro t _ l hl; cases hl
  · intro t _ n hn; cases hn
  · intro t _ hf; cases hf

theorem drain_mem_left {pending : List CommittedTransaction} {w : Nat}
    {c : CommittedTransaction} (hc : c ∈ (drainPendingBelow pending w).1) :
    c ∈ pending ∧ c.commitScn ≤ w := by
  unfold drainPendingBelow at hc
  simp only at hc
  have hcf : c ∈ pending.filter (fun c => decide (c.commitScn ≤ w)) := by
    have := (List.perm_insertionSort ctLe _).mem_iff.mp hc
    rwa [List.partition_eq_filter_filter] at this
  obtain ⟨hmem, hdec⟩ := List.mem_filter.mp hcf
  exact ⟨hmem, of_decide_eq_true hdec⟩

theorem drain_mem_right {pending : List CommittedTransaction} {w : Nat}
    {c : CommittedTransaction} (hc : c ∈ (drainPendingBelow pending w).2) :
    c ∈ pending ∧ w < c.commitScn := by
  unfold drainPendingBelow at hc
  rw [List.partition_eq_filter_filter] at hc
  simp only at hc
  obtain ⟨hmem, hdec⟩ := List.mem_filter.mp hc
  refine ⟨hmem, ?_⟩
  simp only [Function.comp, Bool.not_eq_true', decide_eq_false_iff_not] at hdec
  exact Nat.lt_of_not_le hdec

theorem drain_sorted (pending : List CommittedTransaction) (w : Nat) :
    List.Pairwise ctLe (drainPendingBelow pending w).1 :=
  List.sorted_insertionSort ctLe _

theorem drain_nodup_left {pending : List CommittedTransaction} {w : Nat}
    (h : (pending.map CommittedTransaction.xid).Nodup) :
    ((drainPendingBelow pending w).1.map CommittedTransaction.xid).Nodup := by
  unfold drainPendingBelow
  simp only
  rw [List.partition_eq_filter_filter]
  have hperm := (List.perm_insertionSort ctLe
    (pending.filter fun c => decide (c.commitScn ≤ w))).map CommittedTransaction.xid
  refine hperm.nodup_iff.mpr ?_
  exact h.sublist ((List.filter_sublist pending).map CommittedTransaction.xid)

theorem drain_nodup_right {pending : List CommittedTransaction} {w : Nat}
    (h : (pending.map CommittedTransaction.xid).Nodup) :
    ((drainPendingBelow pending w).2.map CommittedTransaction.xid).Nodup := by
  unfold drainPendingBelow
  rw [List.partition_eq_filter_filter]
  simp only
  exact h.sublist ((List.filter_sublist pending).map CommittedTransaction.xid)

theorem ctLe_commitScn_le {a b : CommittedTransaction} (h : ctLe a b) :
    a.commitScn ≤ b.commitScn := by
  rcases h with hlt | heq
  · rcases hlt with hlt | ⟨heq, -⟩
    · exact Nat.le_of_lt hlt
    · exact Nat.le_of_eq heq
  · have hfst : (ctKey a).1 = (ctKey b).1 := by rw [heq]
    exact Nat.le_of_eq hfst

/-- A drained batch with distinct XIDs is strictly increasing in the
`(commitScn, thread, xid)` key. -/
theorem drain_pairwise_lt {pending : List CommittedTransaction} {w : Nat}
    (h4 : (pending.map CommittedTransaction.xid).Nodup) :
    List.Pairwise ctLt (drainPendingBelow pending w).1 := by
  have hsorted := drain_sorted pending w
  have hxid : List.Pairwise (fun a b : CommittedTransaction => a.xid ≠ b.xid)
      (drainPendingBelow pending w).1 := by
    have hnd := drain_nodup_left (w := w) h4
    have hpw : List.Pairwise (fun a b : Nat => a ≠ b)
        ((drainPendingBelow pending w).1.map CommittedTransaction.xid) := hnd
    exact List.pairwise_map.mp hpw
  refine (hsorted.and hxid).imp ?_
  intro a b hab
  rcases hab with ⟨hle | heqk, hne⟩
  · exact hle
  · exfalso
    apply hne
    have hthd : (ctKey a).2.2 = (ctKey b).2.2 := by rw [heqk]
    simpa [ctKey] using hthd

/-- When the run-model watermark is known, every live thread's `hist`
dominates it. -/
theorem racWatermark_le_hist {s : RacSys} {w : Nat}
    (hw : racWatermark s = some w) (hinv : RacInv s) :
    ∀ t ∈ s.live, ∃ h, (s.threads t).hist = some h ∧ w ≤ h := by
  intro t ht
  obtain ⟨-, -, -, -, h5, h6, h7⟩ := hinv
  obtain ⟨-, hbounds⟩ := updateScnWatermarkGo_le _ none w hw
  have hmem : racThreadState (s.threads t) ∈
      s.live.map (fun t => racThreadState (s.threads t)) :=
    List.mem_map_of_mem _ ht
  obtain ⟨hb1, hb2⟩ := hbounds _ hmem rfl
  rcases hfin : (s.threads t).finished with _ | _
  · obtain ⟨lv, hlv, hwlv⟩ := hb1 hfin
    obtain ⟨h, hh, hlh⟩ := h5 t ht lv hlv
    exact ⟨h, hh, hwlv.trans hlh⟩
  · obtain ⟨n, hn⟩ := h7 t ht hfin
    have hfb : finishedBound (racThreadState (s.threads t)) = some n := by
      simp [finishedBound, racThreadState, hn]
    have hwn : w ≤ n := hb2 hfin n hfb
    obtain ⟨h, hh, hnh⟩ := h6 t ht n hn
    exact ⟨h, hh, hwn.trans hnh⟩

theorem racInv_emit {s : RacSys} (hinv : RacInv s) : RacInv (racEmit s) := by
  obtain ⟨h1, h2, h3, h4, h5, h6, h7⟩ := hinv
  rcases hw : racWatermark s with _ | w
  · have heq : racEmit s = { s with pending := s.pending, emitted := s.emitted } := by
      unfold racEmit
      rw [hw]
      rfl
    rw [heq]
    exact ⟨h1, h2, h3, h4, h5, h6, h7⟩
  · have heq : racEmit s =
        { s with pending := (drainPendingBelow s.pending w).2,
                 emitted := s.emitted ++ (drainPendingBelow s.pending w).1 } := by
      unfold racEmit
      rw [hw]
      rfl
    rw [heq]
    have hwhist := racWatermark_le_hist hw ⟨h1, h2, h3, h4, h5, h6, h7⟩
    refine ⟨?_, ?_, ?_, drain_nodup_right h4, h5, h6, h7⟩
    · rw [List.pairwise_append]
      refine ⟨h1, ?_, ?_⟩
      · exact (drain_sorted s.pending w).imp fun hab => ctLe_commitScn_le hab
      · intro a ha b hb
        have hbp := (drain_mem_left hb).1
        exact h2 a ha b hbp
    · intro e he c hc
      obtain ⟨hcp, hwc⟩ := drain_mem_right hc
      rcases List.mem_append.mp he with he | he
      · exact h2 e he c hcp
      · exact Nat.le_of_lt (Nat.lt_of_le_of_lt (drain_mem_left he).2 hwc)
    · intro e he t ht
      rcases List.mem_append.mp he with he | he
      · exact h3 e he t ht
      · obtain ⟨h, hh, hwh⟩ := hwhist t ht
        exact ⟨h, hh, (drain_mem_left he).2.trans hwh⟩

theorem racInv_step {s s' : RacSys} (hinv : RacInv s) (hstep : RacStep s s') :
    RacInv s' := by
  obtain ⟨h1, h2, h3, h4, h5, h6, h7⟩ := hinv
  cases hstep with
  | produce t L cs ht hnf hmono hcs hnodup hfresh =>
    obtain ⟨x, hx, hLx, hhx⟩ := histMax_spec (s.threads t).hist L
    refine ⟨h1, ?_, ?_, ?_, ?_, ?_, ?_⟩
    · intro e he c hc
      rcases List.mem_append.mp hc with hc | hc
      · exact h2 e he c hc
      · obtain ⟨h, hh, heh⟩ := h3 e he t ht
        exact heh.trans ((hcs c hc).2.2 h hh)
    · intro e he t' ht'
      by_cases hteq : t' = t
      · subst hteq
        obtain ⟨h, hh, heh⟩ := h3 e he t' ht'
        exact ⟨x, by simp [setThread, hx], heh.trans (hhx h hh)⟩
      · obtain ⟨h, hh, heh⟩ := h3 e he t' ht'
        exact ⟨h, by simp [setThread, hteq, hh], heh⟩
    · rw [List.map_append, List.nodup_append]
      refine ⟨h4, hnodup, ?_⟩
      intro a hap hac
      obtain ⟨d, hd, hda⟩ := List.mem_map.mp hap
      obtain ⟨c, hc, hca⟩ := List.mem_map.mp hac
      exact hfresh c hc d hd (hca.trans hda.symm)
    · intro t' ht' l hl
      by_cases hteq : t' = t
      · subst hteq
        simp only [setThread, if_pos rfl] at hl ⊢
        cases hl
        exact ⟨x, hx, hLx⟩
      · simp only [setThread, if_neg hteq] at hl ⊢
        exact h5 t' ht' l hl
    · intro t' ht' n hn
      by_cases hteq : t' = t
      · subst hteq
        simp only [setThread, if_pos rfl] at hn ⊢
        obtain ⟨h, hh, hnh⟩ := h6 t' ht' n hn
        exact ⟨x, hx, hnh.trans (hhx h hh)⟩
      · simp only [setThread, if_neg hteq] at hn ⊢
        exact h6 t' ht' n hn
    · intro t' ht' hf
      by_cases hteq : t' = t
      · subst hteq
        simp only [setThread, if_pos rfl] at hf
        cases hf
      · simp only [setThread, if_neg hteq] at hf ⊢
        exact h7 t' ht' hf
  | finish t n ht hnf hmono =>
    obtain ⟨x, hx, hnx, hhx⟩ := histMax_spec (s.threads t).hist n
    refine ⟨h1, h2, ?_, h4, ?_, ?_, ?_⟩
    · intro e he t' ht'
      by_cases hteq : t' = t
      · subst hteq
        obtain ⟨h, hh, heh⟩ := h3 e he t' ht'
        exact ⟨x, by simp [setThread, hx], heh.trans (hhx h hh)⟩
      · obtain ⟨h, hh, heh⟩ := h3 e he t' ht'
        exact ⟨h, by simp [setThread, hteq, hh], heh⟩
    · intro t' ht' l hl
      by_cases hteq : t' = t
      · subst hteq
        simp only [setThread, if_pos rfl] at hl ⊢
        obtain ⟨h, hh, hlh⟩ := h5 t' ht' l hl
        exact ⟨x, hx, hlh.trans (hhx h hh)⟩
      · simp only [setThread, if_neg hteq] at hl ⊢
        exact h5 t' ht' l hl
    · intro t' ht' n' hn'
      by_cases hteq : t' = t
      · subst hteq
        simp only [setThread, if_pos rfl] at hn' ⊢
        cases hn'
        exact ⟨x, hx, hnx⟩
      · simp only [setThread, if_neg hteq] at hn' ⊢
        exact h6 t' ht' n' hn'
    · intro t' ht' hf
      by_cases hteq : t' = t
      · subst hteq
        exact ⟨n, by simp [setThread]⟩
      · simp only [setThread, if_neg hteq] at hf ⊢
        exact h7 t' ht' hf
  | logSwitch t ht hf =>
    refine ⟨h1, h2, ?_, h4, ?_, ?_, ?_⟩
    · intro e he t' ht'
      by_cases hteq : t' = t
      · subst hteq
        obtain ⟨h, hh, heh⟩ := h3 e he t' ht'
        exact ⟨h, by simp [setThread, hh], heh⟩
      · obtain ⟨h, hh, heh⟩ := h3 e he t' ht'
        exact ⟨h, by simp [setThread, hteq, hh], heh⟩
    · intro t' ht' l hl
      by_cases hteq : t' = t
      · subst hteq
        simp only [setThread, if_pos rfl] at hl ⊢
        exact h5 t' ht' l hl
      · simp only [setThread, if_neg hteq] at hl ⊢
        exact h5 t' ht' l hl
    · intro t' ht' n hn
      by_cases hteq : t' = t
      · subst hteq
        simp only [setThread, if_pos rfl] at hn
        cases hn
      · simp only [setThread, if_neg hteq] at hn ⊢
        exact h6 t' ht' n hn
    · intro t' ht' hfin
      by_cases hteq : t' = t
      · subst hteq
        simp only [setThread, if_pos rfl] at hfin
        cases hfin
      · simp only [setThread, if_neg hteq] at hfin ⊢
        exact h7 t' ht' hfin
  | emit =>
    exact racInv_emit ⟨h1, h2, h3, h4, h5, h6, h7⟩
  | deactivate t =>
    refine ⟨h1, h2, ?_, h4, ?_, ?_, ?_⟩
    · intro e he t' ht'
      exact h3 e he t' (List.mem_of_mem_erase ht')
    · intro t' ht'
      exact h5 t' (List.mem_of_mem_erase ht')
    · intro t' ht'
      exact h6 t' (List.mem_of_mem_erase ht')
    · intro t' ht'
      exact h7 t' (List.mem_of_mem_erase ht')

theorem racInv_reachable {ts : List Nat} {s : RacSys}
    (h : Relation.ReflTransGen RacStep (racInit ts) s) : RacInv s := by
  induction h with
  | refl => exact racInv_init ts
  | tail _ hstep ih => exact racInv_step ih hstep

/-- First commit of thread 1 at SCN 10 (XID 5), inside the LWN group whose
`lwnScn` is 10. -/
def tieCt1 : CommittedTransaction :=
  { xid := 5, commitScn := 10, lwnScn := 10, thread := 1,
    rollback := false, shutdownMarker := false }

/-- Second commit of thread 1, from a later LWN group at the same maximum
SCN 10, with a smaller XID. -/
def tieCt2 : CommittedTransaction :=
  { xid := 3, commitScn := 10, lwnScn := 10, thread := 1,
    rollback := false, shutdownMarker := false }

/-- Counterexample run, after the first parse: thread 1 consumed a group at
SCN 10 committing `tieCt1`. -/
def tieRun1 : RacSys :=
  { racInit [1] with
    threads := setThread (racInit [1]).threads 1
      { lastLwnScn := some 10, nextScn := ((racInit [1]).threads 1).nextScn,
        finished := false, hist := histMax ((racInit [1]).threads 1).hist 10 },
    pending := (racInit [1]).pending ++ [tieCt1] }

/-- Counterexample run after the first emission: `tieCt1` is flushed at
watermark 10. -/
def tieRun2 : RacSys := racEmit tieRun1

/-- Counterexample run after the second parse: a later group, still at
maximum SCN 10 (in-thread SCN order is only non-decreasing), commits
`tieCt2`. -/
def tieRun3 : RacSys :=
  { tieRun2 with
    threads := setThread tieRun2.threads 1
      { lastLwnScn := some 10, nextScn := (tieRun2.threads 1).nextScn,
        finished := false, hist := histMax (tieRun2.threads 1).hist 10 },
    pending := tieRun2.pending ++ [tieCt2] }

/-- C1 counterexample: the claim demands that any two emitted operations
`a` preceding `b` satisfy `(a.commitScn, a.thread, a.xid) <
(b.commitScn, b.thread, b.xid)`.  In this run thread 1 commits twice at the
same SCN 10 in successive LWN groups — permitted, since in-thread SCN order
and the spec's invariants 4 and 6 are only non-strict — and the two
`emitWatermarkedTransactions` calls flush `(10, 1, 5)` and then `(10, 1, 3)`:
`drainPendingBelow` sorts only within one batch, so the emitted sequence is
not strictly increasing. -/
theorem rac_strict_order_counterexample :
    Relation.ReflTransGen RacStep (racInit [1]) (racEmit tieRun3) ∧
    (racEmit tieRun3).emitted = [tieCt1, tieCt2] ∧
    ¬ List.Pairwise ctLt (racEmit tieRun3).emitted := by
  refine ⟨?_, by decide, by decide⟩
  refine Relation.ReflTransGen.tail (b := tieRun3)
    (Relation.ReflTransGen.tail (b := tieRun2)
      (Relation.ReflTransGen.tail (b := tieRun1)
        (Relation.ReflTransGen.single ?_)
        (RacStep.emit tieRun1))
      ?_)
    (RacStep.emit tieRun3)
  · show RacStep (racInit [1]) tieRun1
    exact RacStep.produce (racInit [1]) 1 10 [tieCt1] (by decide) rfl
      (fun l h => nomatch h)
      (by
        intro c hc
        rcases List.mem_singleton.mp hc with rfl
        exact ⟨rfl, by decide, fun hv h => nomatch h⟩)
      (by decide)
      (fun c _ d hd => absurd hd (List.not_mem_nil d))
  · show RacStep tieRun2 tieRun3
    exact RacStep.produce tieRun2 1 10 [tieCt2] (by decide) rfl
      (by
        intro l hl
        have hl' : (some 10 : Scn) = some l := hl
        injection hl' with hl2
        omega)
      (by
        intro c hc
        rcases List.mem_singleton.mp hc with rfl
        refine ⟨rfl, by decide, ?_⟩
        intro hv hh
        have hh' : (some 10 : Scn) = some hv := hh
        injection hh' with hh2
        subst hh2
        decide)
      (by decide)
      (by decide)

/-- C1 amended: in every run of the RAC online loop the flushed sequence is
non-decreasing in `commitScn`, and each single
`emitWatermarkedTransactions` call flushes a batch that is strictly
increasing in the lexicographic `(commitScn, thread, xid)` order (at any
known watermark, the batch the next emission drains is strictly ordered);
equal `commitScn` ties are ordered within a batch but not across batches. -/
theorem rac_emitted_order (ts : List Nat) (s : RacSys)
    (h : Relation.ReflTransGen RacStep (racInit ts) s) :
    List.Pairwise (fun a b : CommittedTransaction =>
      a.commitScn ≤ b.commitScn) s.emitted ∧
    ∀ w, racWatermark s = some w →
      List.Pairwise ctLt (drainPendingBelow s.pending w).1 := by
  obtain ⟨h1, -, -, h4, -, -, -⟩ := racInv_reachable h
  exact ⟨h1, fun w _ => drain_pairwise_lt h4⟩

/-- Witness run start: RAC with threads 1 and 2. -/
def racW0 : RacSys := racInit [1, 2]

/-- Witness transaction committed by thread 1 at SCN 9. -/
def racWCt : CommittedTransaction :=
  { xid := 3, commitScn := 9, lwnScn := 10, thread := 1,
    rollback := false, shutdownMarker := false }

/-- Witness state after thread 1 parses an LWN group at SCN 10. -/
def racW1 : RacSys :=
  { racW0 with
    threads := setThread racW0.threads 1
      { lastLwnScn := some 10, nextScn := (racW0.threads 1).nextScn,
        finished := false, hist := histMax (racW0.threads 1).hist 10 },
    pending := racW0.pending ++ [racWCt] }

/-- Witness state after thread 2 parses an LWN group at SCN 12. -/
def racW2 : RacSys :=
  { racW1 with
    threads := setThread racW1.threads 2
      { lastLwnScn := some 12, nextScn := (racW1.threads 2).nextScn,
        finished := false, hist := histMax (racW1.threads 2).hist 12 },
    pending := racW1.pending ++ [] }

theorem rac_emitted_order_witness :
    List.Pairwise (fun a b : CommittedTransaction =>
      a.commitScn ≤ b.commitScn) (racEmit racW2).emitted ∧
    (∀ w, racWatermark (racEmit racW2) = some w →
      List.Pairwise ctLt (drainPendingBelow (racEmit racW2).pending w).1) := by
  apply rac_emitted_order [1, 2]
  refine Relation.ReflTransGen.tail (b := racW2)
    (Relation.ReflTransGen.tail (b := racW1) (Relation.ReflTransGen.single ?_) ?_)
    (RacStep.emit racW2)
  · show RacStep racW0 racW1
    exact RacStep.produce racW0 1 10 [racWCt] (by decide) rfl
      (fun l h => nomatch h)
      (by
        intro c hc
        rcases List.mem_singleton.mp hc with rfl
        exact ⟨rfl, by decide, fun hv h => nomatch h⟩)
      (by decide)
      (fun c _ d hd => absurd hd (List.not_mem_nil d))
  · show RacStep racW1 racW2
    exact RacStep.produce racW1 2 12 [] (by decide) rfl
      (fun l h => nomatch h)
      (fun c hc => absurd hc (List.not_mem_nil c))
      (by decide)
      (fun c hc => absurd hc (List.not_mem_nil c))

/-- Head entry of a per-thread archive queue: the `Parser` fields read by the
archive scheduler.  `sequence` is parsed from the archive file name at
discovery; `firstScn` stays `Scn::none()` until the file has been opened. -/
structure ArchParser where
  sequence : Nat
  firstScn : Scn
deriving Repr, DecidableEq

/-- Eligibility of a queue head in `pickNextArchiveThread`: the code skips
the head iff `threadSeq != zero && threadSeq != none` and the head's
sequence differs from `threadSeq` (below = already processed, above = gap). -/
def archEligible (threadSeq : Seq) (s : Nat) : Bool :=
  match threadSeq with
  | none => true
  | some v => if v = 0 then true else decide (s = v)

/-- One iteration of the `pickNextArchiveThread` loop over
`archiveRedoQueues` (a `std::map`, iterated in ascending thread order).
The accumulator holds `(bestThread, bestScn, bestSeq)`; `none` plays the
role of the `bestThread == 0` sentinel. -/
def pickStep (seqOf : Nat → Seq) (acc : Option (Nat × Scn × Nat))
    (entry : Nat × List ArchParser) : Option (Nat × Scn × Nat) :=
  match entry.2.head? with
  | none => acc
  | some parser =>
    if archEligible (seqOf entry.1) parser.sequence then
      match acc with
      | none => some (entry.1, parser.firstScn, parser.sequence)
      | some (bt, bScn, bSeq) =>
        match parser.firstScn, bScn with
        | some ps, some bs =>
          if ps < bs ∨ (ps = bs ∧ entry.1 < bt) then
            some (entry.1, parser.firstScn, parser.sequence)
          else some (bt, bScn, bSeq)
        | some _, none => some (entry.1, parser.firstScn, parser.sequence)
        | none, some _ => some (bt, bScn, bSeq)
        | none, none =>
          if parser.sequence < bSeq ∨ (parser.sequence = bSeq ∧ entry.1 < bt) then
            some (entry.1, parser.firstScn, parser.sequence)
          else some (bt, bScn, bSeq)
    else acc

/-- `Replicator::pickNextArchiveThread` over the per-thread archive queues
(thread number paired with the queue in ascending-sequence order, so the
queue head is `head?`); returns `0` when no best thread was selected. -/
def pickNextArchiveThread (seqOf : Nat → Seq)
    (queues : List (Nat × List ArchParser)) : Nat :=
  match queues.foldl (pickStep seqOf) none with
  | none => 0
  | some (t, _, _) => t

/-- The eligible queue head of one map entry, if any. -/
def eligHead (seqOf : Nat → Seq) (e : Nat × List ArchParser) :
    Option (Nat × ArchParser) :=
  match e.2.head? with
  | none => none
  | some h => if archEligible (seqOf e.1) h.sequence then some (e.1, h) else none

/-- All eligible queue heads, in thread order. -/
def eligHeads (seqOf : Nat → Seq) (queues : List (Nat × List ArchParser)) :
    List (Nat × ArchParser) :=
  queues.filterMap (eligHead seqOf)

/-- Selection key of an eligible head: heads with known `firstScn` are
preferred (ordered by `firstScn` then thread); among all-unknown heads the
lowest sequence wins, ties by thread. -/
def pickKey (t : Nat) (p : ArchParser) : Nat × Nat × Nat :=
  match p.firstScn with
  | some s => (0, s, t)
  | none => (1, p.sequence, t)

/-- Selection key of the accumulator triple `(bestThread, bestScn, bestSeq)`. -/
def accKey (b : Nat × Scn × Nat) : Nat × Nat × Nat :=
  match b.2.1 with
  | some s => (0, s, b.1)
  | none => (1, b.2.2, b.1)

/-- Reflexive lexicographic order on selection keys. -/
def keyLe3 (x y : Nat × Nat × Nat) : Prop := keyLt x y ∨ x = y

instance : DecidableRel keyLe3 := fun x y => by unfold keyLe3; infer_instance

theorem accKey_mk (t : Nat) (p : ArchParser) :
    accKey (t, p.firstScn, p.sequence) = pickKey t p := by
  rcases hp : p.firstScn with _ | s <;> simp [accKey, pickKey, hp]

theorem keyLe3_refl (x : Nat × Nat × Nat) : keyLe3 x x := Or.inr rfl

theorem keyLe3_trans {x y z : Nat × Nat × Nat} (h1 : keyLe3 x y) (h2 : keyLe3 y z) :
    keyLe3 x z := by
  rcases h1 with h1 | rfl
  · rcases h2 with h2 | rfl
    · exact Or.inl (keyLt_trans h1 h2)
    · exact Or.inl h1
  · exact h2

theorem eligHead_some {seqOf : Nat → Seq} {e : Nat × List ArchParser}
    {q : Nat × ArchParser} (hq : eligHead seqOf e = some q) :
    q.1 = e.1 ∧ e.2.head? = some q.2 ∧ archEligible (seqOf e.1) q.2.sequence = true := by
  unfold eligHead at hq
  rcases hh : e.2.head? with _ | h
  · simp only [hh] at hq
    cases hq
  · simp only [hh] at hq
    rcases hel : archEligible (seqOf e.1) h.sequence with _ | _
    · simp [hel] at hq
    · simp only [hel, if_true] at hq
      cases hq
      exact ⟨rfl, rfl, hel⟩

theorem pickStep_eq_none_iff (seqOf : Nat → Seq) (acc : Option (Nat × Scn × Nat))
    (e : Nat × List ArchParser) :
    pickStep seqOf acc e = none ↔ acc = none ∧ eligHead seqOf e = none := by
  rcases hh : e.2.head? with _ | h
  · simp [pickStep, eligHead, hh]
  · rcases hel : archEligible (seqOf e.1) h.sequence with _ | _
    · simp [pickStep, eligHead, hh, hel]
    · rcases acc with _ | ⟨bt, bScn, bSeq⟩
      · simp [pickStep, eligHead, hh, hel]
      · rcases hf : h.firstScn with _ | ps <;> rcases hb : bScn with _ | bs <;>
          simp [pickStep, eligHead, hh, hel, hf] <;> split <;> simp

theorem pickStep_cases (seqOf : Nat → Seq) (acc : Option (Nat × Scn × Nat))
    (e : Nat × List ArchParser) :
    pickStep seqOf acc e = acc ∨
    ∃ h, eligHead seqOf e = some (e.1, h) ∧
      pickStep seqOf acc e = some (e.1, h.firstScn, h.sequence) := by
  rcases hh : e.2.head? with _ | h
  · left; simp [pickStep, hh]
  · rcases hel : archEligible (seqOf e.1) h.sequence with _ | _
    · left; simp [pickStep, hh, hel]
    · have helig : eligHead seqOf e = some (e.1, h) := by
        simp [eligHead, hh, hel]
      rcases acc with _ | ⟨bt, bScn, bSeq⟩
      · right; exact ⟨h, helig, by simp [pickStep, hh, hel]⟩
      · rcases hf : h.firstScn with _ | ps <;> rcases hb : bScn with _ | bs
        · by_cases hc : h.sequence < bSeq ∨ (h.sequence = bSeq ∧ e.1 < bt)
          · right
            exact ⟨h, helig, by simp [pickStep, hh, hel, hf, hb, hc]⟩
          · left; simp [pickStep, hh, hel, hf, hb, hc]
        · left; simp [pickStep, hh, hel, hf, hb]
        · right; exact ⟨h, helig, by simp [pickStep, hh, hel, hf, hb]⟩
        · by_cases hc : ps < bs ∨ (ps = bs ∧ e.1 < bt)
          · right
            exact ⟨h, helig, by simp [pickStep, hh, hel, hf, hb, hc]⟩
          · left; simp [pickStep, hh, hel, hf, hb, hc]

theorem pickStep_min (seqOf : Nat → Seq) (acc : Option (Nat × Scn × Nat))
    (e : Nat × List ArchParser)
    (hgt : ∀ b0, acc = some b0 → b0.1 < e.1) :
    ∀ b, pickStep seqOf acc e = some b →
      (∀ b0, acc = some b0 → keyLe3 (accKey b) (accKey b0)) ∧
      (∀ h, eligHead seqOf e = some (e.1, h) → keyLe3 (accKey b) (pickKey e.1 h)) := by
  intro b hstep
  unfold pickStep at hstep
  rcases hh : e.2.head? with _ | h
  · simp only [hh] at hstep
    refine ⟨fun b0 hb0 => ?_, fun h hq => ?_⟩
    · rw [hstep] at hb0; cases hb0; exact keyLe3_refl _
    · have := (eligHead_some hq).2.1
      rw [hh] at this; cases this
  · simp only [hh] at hstep
    rcases hel : archEligible (seqOf e.1) h.sequence with _ | _
    · simp only [hel, Bool.false_eq_true, if_false] at hstep
      refine ⟨fun b0 hb0 => ?_, fun h' hq => ?_⟩
      · rw [hstep] at hb0; cases hb0; exact keyLe3_refl _
      · obtain ⟨-, hh', hel'⟩ := eligHead_some hq
        rw [hh] at hh'; cases hh'
        rw [hel] at hel'; cases hel'
    · have hhead : ∀ h', eligHead seqOf e = some (e.1, h') → h' = h := by
        intro h' hq
        obtain ⟨-, hh', -⟩ := eligHead_some hq
        rw [hh] at hh'; cases hh'; rfl
      simp only [hel, if_true] at hstep
      rcases acc with _ | ⟨bt, bScn, bSeq⟩
      · cases hstep
        constructor
        · intro b0 hb0
          cases hb0
        · intro h' hq
          rcases hhead h' hq
          rw [accKey_mk]
          exact keyLe3_refl _
      · have hbt : bt < e.1 := hgt (bt, bScn, bSeq) rfl
        rcases hf : h.firstScn with _ | ps <;> rcases hb : bScn with _ | bs <;>
          simp only [hf, hb] at hstep
        · -- both unknown: compare sequences
          by_cases hc : h.sequence < bSeq ∨ (h.sequence = bSeq ∧ e.1 < bt)
          · rw [if_pos hc] at hstep
            cases hstep
            have hseq : h.sequence < bSeq := by
              rcases hc with hc | ⟨-, hc⟩
              · exact hc
              · exact absurd hc (Nat.not_lt.mpr (Nat.le_of_lt hbt))
            refine ⟨fun b0 hb0 => ?_, fun h' hq => ?_⟩
            · cases hb0
              refine Or.inl ?_
              simp only [accKey, hf, hb]
              exact Or.inr ⟨rfl, Or.inl hseq⟩
            · rcases hhead h' hq
              refine Or.inr ?_
              simp only [accKey, pickKey, hf]
          · rw [if_neg hc] at hstep
            cases hstep
            refine ⟨fun b0 hb0 => ?_, fun h' hq => ?_⟩
            · cases hb0; exact keyLe3_refl _
            · rcases hhead h' hq
              push_neg at hc
              refine Or.inl ?_
              simp only [accKey, pickKey, hf, hb]
              rcases Nat.lt_or_ge bSeq h.sequence with hlt | hge
              · exact Or.inr ⟨rfl, Or.inl hlt⟩
              · have heq : bSeq = h.sequence := Nat.le_antisymm hc.1 hge
                exact Or.inr ⟨rfl, Or.inr ⟨heq, hbt⟩⟩
        · -- head unknown, best known: keep best
          cases hstep
          refine ⟨fun b0 hb0 => ?_, fun h' hq => ?_⟩
          · cases hb0; exact keyLe3_refl _
          · rcases hhead h' hq
            refine Or.inl ?_
            simp only [accKey, pickKey, hf, hb]
            exact Or.inl Nat.zero_lt_one
        · -- head known, best unknown: take head
          cases hstep
          refine ⟨fun b0 hb0 => ?_, fun h' hq => ?_⟩
          · cases hb0
            refine Or.inl ?_
            simp only [accKey, hf, hb]
            exact Or.inl Nat.zero_lt_one
          · rcases hhead h' hq
            refine Or.inr ?_
            simp only [accKey, pickKey, hf]
        · -- both known: compare first SCNs
          by_cases hc : ps < bs ∨ (ps = bs ∧ e.1 < bt)
          · rw [if_pos hc] at hstep
            cases hstep
            have hps : ps < bs := by
              rcases hc with hc | ⟨-, hc⟩
              · exact hc
              · exact absurd hc (Nat.not_lt.mpr (Nat.le_of_lt hbt))
            refine ⟨fun b0 hb0 => ?_, fun h' hq => ?_⟩
            · cases hb0
              refine Or.inl ?_
              simp only [accKey, hf, hb]
              exact Or.inr ⟨rfl, Or.inl hps⟩
            · rcases hhead h' hq
              refine Or.inr ?_
              simp only [accKey, pickKey, hf]
          · rw [if_neg hc] at hstep
            cases hstep
            refine ⟨fun b0 hb0 => ?_, fun h' hq => ?_⟩
            · cases hb0; exact keyLe3_refl _
            · rcases hhead h' hq
              push_neg at hc
              refine Or.inl ?_
              simp only [accKey, pickKey, hf, hb]
              rcases Nat.lt_or_ge bs ps with hlt | hge
              · exact Or.inr ⟨rfl, Or.inl hlt⟩
              · have heq : bs = ps := Nat.le_antisymm hc.1 hge
                exact Or.inr ⟨rfl, Or.inr ⟨heq, hbt⟩⟩

theorem eligHeads_cons (seqOf : Nat → Seq) (e : Nat × List ArchParser)
    (l : List (Nat × List ArchParser)) :
    eligHeads seqOf (e :: l) =
      match eligHead seqOf e with
      | none => eligHeads seqOf l
      | some q => q :: eligHeads seqOf l := by
  unfold eligHeads
  rw [List.filterMap_cons]
  cases eligHead seqOf e <;> rfl

theorem pickStep_isSome (seqOf : Nat → Seq) (acc : Option (Nat × Scn × Nat))
    (e : Nat × List ArchParser) (b0 : Nat × Scn × Nat) (hb0 : acc = some b0) :
    ∃ b', pickStep seqOf acc e = some b' := by
  rcases hs : pickStep seqOf acc e with _ | b'
  · have := (pickStep_eq_none_iff seqOf acc e).mp hs
    rw [hb0] at this
    cases this.1
  · exact ⟨b', rfl⟩

theorem pickFold_char (seqOf : Nat → Seq) :
    ∀ (l : List (Nat × List ArchParser)) (acc : Option (Nat × Scn × Nat)),
      (∀ b0 e, acc = some b0 → e ∈ l → b0.1 < e.1) →
      List.Pairwise (fun a b => a.1 < b.1) l →
      (l.foldl (pickStep seqOf) acc = none ↔ acc = none ∧ eligHeads seqOf l = []) ∧
      (∀ b, l.foldl (pickStep seqOf) acc = some b →
        (acc = some b ∨
          ∃ h, (b.1, h) ∈ eligHeads seqOf l ∧ b.2.1 = h.firstScn ∧ b.2.2 = h.sequence) ∧
        (∀ b0, acc = some b0 → keyLe3 (accKey b) (accKey b0)) ∧
        (∀ p ∈ eligHeads seqOf l, keyLe3 (accKey b) (pickKey p.1 p.2))) := by
  intro l
  induction l with
  | nil =>
    intro acc hacc hasc
    refine ⟨by simp [eligHeads], ?_⟩
    intro b hb
    simp only [List.foldl_nil] at hb
    refine ⟨Or.inl hb, fun b0 hb0 => ?_, by simp [eligHeads]⟩
    rw [hb] at hb0; cases hb0
    exact keyLe3_refl _
  | cons e l ih =>
    intro acc hacc hasc
    rw [List.foldl_cons]
    obtain ⟨hheadlt, hasctail⟩ := List.pairwise_cons.mp hasc
    have hgt : ∀ b0, acc = some b0 → b0.1 < e.1 :=
      fun b0 hb0 => hacc b0 e hb0 (List.mem_cons_self e l)
    have hacc' : ∀ b0 e', pickStep seqOf acc e = some b0 → e' ∈ l → b0.1 < e'.1 := by
      intro b0 e' hb0 he'
      rcases pickStep_cases seqOf acc e with hcase | ⟨h, helq, hcase⟩
      · rw [hcase] at hb0
        exact hacc b0 e' hb0 (List.mem_cons_of_mem e he')
      · rw [hcase] at hb0; cases hb0
        exact hheadlt e' he'
    obtain ⟨ihn, ihs⟩ := ih (pickStep seqOf acc e) hacc' hasctail
    constructor
    · rw [ihn, pickStep_eq_none_iff, eligHeads_cons]
      rcases hq : eligHead seqOf e with _ | q
      · simp
      · simp
    · intro b hb
      obtain ⟨ihs1, ihs2, ihs3⟩ := ihs b hb
      refine ⟨?_, ?_, ?_⟩
      · rcases ihs1 with hstep | ⟨h, hmem, hfs, hsq⟩
        · rcases pickStep_cases seqOf acc e with hcase | ⟨h, helq, hcase⟩
          · rw [hcase] at hstep
            exact Or.inl hstep
          · rw [hcase] at hstep; cases hstep
            refine Or.inr ⟨h, ?_, rfl, rfl⟩
            rw [eligHeads_cons, helq]
            exact List.mem_cons_self _ _
        · refine Or.inr ⟨h, ?_, hfs, hsq⟩
          rw [eligHeads_cons]
          rcases hq : eligHead seqOf e with _ | q
          · exact hmem
          · exact List.mem_cons_of_mem _ hmem
      · intro b0 hb0
        obtain ⟨b', hb'⟩ := pickStep_isSome seqOf acc e b0 hb0
        exact keyLe3_trans (ihs2 b' hb')
          ((pickStep_min seqOf acc e hgt b' hb').1 b0 hb0)
      · intro p hp
        rw [eligHeads_cons] at hp
        rcases hq : eligHead seqOf e with _ | q
        · rw [hq] at hp
          exact ihs3 p hp
        · rw [hq] at hp
          rcases List.mem_cons.mp hp with heqq | hp
          · subst heqq
            obtain ⟨hq1, -, -⟩ := eligHead_some hq
            rcases hsna : pickStep seqOf acc e with _ | b'
            · have hcontra := (pickStep_eq_none_iff seqOf acc e).mp hsna
              rw [hq] at hcontra
              cases hcontra.2
            · have hq' : eligHead seqOf e = some (e.1, p.2) := by
                rw [hq, ← hq1]
              have h2 := (pickStep_min seqOf acc e hgt b' hsna).2 p.2 hq'
              rw [← hq1] at h2
              exact keyLe3_trans (ihs2 b' hsna) h2
          · exact ihs3 p hp

/-- C4 counterexample metadata: `metadata.sequence(thread)` is unknown for
every thread. -/
def cexSeqOf : Nat → Seq := fun _ => none

/-- C4 counterexample queues: thread 1's queue head has sequence 7. -/
def cexQueues : List (Nat × List ArchParser) :=
  [(1, [{ sequence := 7, firstScn := none }])]

/-- Eligibility exactly as the claim words it: a head is considered only
when its sequence equals `metadata.sequence(thread)`. -/
def claimConsiders (threadSeq : Seq) (s : Nat) : Prop := threadSeq = some s

instance (threadSeq : Seq) (s : Nat) : Decidable (claimConsiders threadSeq s) := by
  unfold claimConsiders
  infer_instance

/-- C4 counterexample: with `metadata.sequence(1)` unknown, the claim admits
no head (sequence 7 does not equal the unknown metadata sequence) and so
demands the result 0; the code nevertheless considers the head and returns
thread 1. -/
theorem pickNextArchiveThread_claim_counterexample :
    pickNextArchiveThread cexSeqOf cexQueues = 1 ∧
    ¬ claimConsiders (cexSeqOf 1) 7 := by decide

/-- C4 amended: heads of non-empty queues are eligible when
`metadata.sequence(thread)` equals the head's sequence, or when the metadata
sequence is zero or unknown (then the head is eligible unconditionally);
`pickNextArchiveThread` returns 0 iff no head is eligible and otherwise an
eligible thread whose head minimises the selection key: known `firstScn`
beats unknown, known heads are ordered by `(firstScn, thread)`, all-unknown
heads by `(sequence, thread)`. -/
theorem pickNextArchiveThread_correct (seqOf : Nat → Seq)
    (queues : List (Nat × List ArchParser))
    (hpos : ∀ e ∈ queues, 1 ≤ e.1)
    (hasc : List.Pairwise (fun a b => a.1 < b.1) queues) :
    (pickNextArchiveThread seqOf queues = 0 ↔ eligHeads seqOf queues = []) ∧
    (∀ t, pickNextArchiveThread seqOf queues = t → t ≠ 0 →
      ∃ h, (t, h) ∈ eligHeads seqOf queues ∧
        ∀ p ∈ eligHeads seqOf queues, keyLe3 (pickKey t h) (pickKey p.1 p.2)) := by
  obtain ⟨hn, hs⟩ := pickFold_char seqOf queues none (fun b0 e h => by cases h) hasc
  have hthreadpos : ∀ b, queues.foldl (pickStep seqOf) none = some b → 1 ≤ b.1 := by
    intro b hfold
    obtain ⟨hprov, -, -⟩ := hs b hfold
    rcases hprov with hcontra | ⟨h, hmem, -, -⟩
    · cases hcontra
    · obtain ⟨q, hqmem, hfq⟩ := List.mem_filterMap.mp hmem
      obtain ⟨hq1, -, -⟩ := eligHead_some hfq
      have hq1' : b.1 = q.1 := hq1
      rw [hq1']
      exact hpos q hqmem
  constructor
  · constructor
    · intro h0
      rcases hfold : queues.foldl (pickStep seqOf) none with _ | b
      · exact (hn.mp hfold).2
      · exfalso
        unfold pickNextArchiveThread at h0
        rw [hfold] at h0
        rcases b with ⟨bt, bScn, bSeq⟩
        simp only at h0
        have := hthreadpos (bt, bScn, bSeq) hfold
        omega
    · intro helig
      rcases hfold : queues.foldl (pickStep seqOf) none with _ | b
      · unfold pickNextArchiveThread
        rw [hfold]
      · exfalso
        obtain ⟨hprov, -, -⟩ := hs b hfold
        rcases hprov with hcontra | ⟨h, hmem, -, -⟩
        · cases hcontra
        · rw [helig] at hmem
          cases hmem
  · intro t hpick ht0
    rcases hfold : queues.foldl (pickStep seqOf) none with _ | b
    · exfalso
      unfold pickNextArchiveThread at hpick
      rw [hfold] at hpick
      exact ht0 hpick.symm
    · obtain ⟨hprov, -, hmin⟩ := hs b hfold
      rcases hprov with hcontra | ⟨h, hmem, hfs, hsq⟩
      · cases hcontra
      · have hbt : b.1 = t := by
          unfold pickNextArchiveThread at hpick
          rw [hfold] at hpick
          rcases b with ⟨bt, bScn, bSeq⟩
          simpa using hpick
        have hbacc : accKey b = pickKey t h := by
          rcases b with ⟨bt, bScn, bSeq⟩
          simp only at hbt hfs hsq
          rw [hbt, hfs, hsq]
          exact accKey_mk t h
        rw [hbt] at hmem
        refine ⟨h, hmem, ?_⟩
        intro p hp
        rw [← hbacc]
        exact hmin p hp

/-- C4 witness queues: threads 1 and 2, both heads matching their expected
sequences; thread 2 has the lower `firstScn`. -/
def pickWQueues : List (Nat × List ArchParser) :=
  [(1, [{ sequence := 5, firstScn := some 100 }]),
   (2, [{ sequence := 3, firstScn := some 50 }])]

/-- C4 witness metadata sequences. -/
def pickWSeqOf : Nat → Seq := fun t => if t = 1 then some 5 else some 3

theorem pickNextArchiveThread_correct_witness :
    ((pickNextArchiveThread pickWSeqOf pickWQueues = 0 ↔
        eligHeads pickWSeqOf pickWQueues = []) ∧
     (∀ t, pickNextArchiveThread pickWSeqOf pickWQueues = t → t ≠ 0 →
       ∃ h, (t, h) ∈ eligHeads pickWSeqOf pickWQueues ∧
         ∀ p ∈ eligHeads pickWSeqOf pickWQueues,
           keyLe3 (pickKey t h) (pickKey p.1 p.2))) ∧
    pickNextArchiveThread pickWSeqOf pickWQueues = 2 :=
  ⟨pickNextArchiveThread_correct pickWSeqOf pickWQueues
      (by decide) (by decide),
   by decide⟩

/-- The discovery filter of `Replicator::archGetLogPath`: a candidate whose
parsed sequence is zero is skipped; a candidate below a known per-thread
metadata sequence is skipped; everything else is enqueued. -/
def discoveryEnqueues (threadSeq : Seq) (sequence : Nat) : Bool :=
  if sequence = 0 then false
  else
    match threadSeq with
    | none => true
    | some v => !(decide (sequence < v))

/-- The stale-entry cleanup of `Replicator::processArchivedRedoLogs`: while
the metadata sequence is known and nonzero and the queue head's sequence is
below it, pop and delete the head. -/
def cleanupQueue (threadSeq : Seq) (q : List ArchParser) : List ArchParser :=
  match threadSeq with
  | none => q
  | some v =>
    if v = 0 then q else q.dropWhile (fun p => decide (p.sequence < v))

theorem dropWhile_stale (v : Nat) :
    ∀ q : List ArchParser,
      List.Pairwise (fun a b : ArchParser => a.sequence ≤ b.sequence) q →
      ∀ p ∈ q.dropWhile (fun p => decide (p.sequence < v)), v ≤ p.sequence := by
  intro q
  induction q with
  | nil =>
    intro _ p hp
    simp at hp
  | cons a q ih =>
    intro hsorted p hp
    obtain ⟨hhead, htail⟩ := List.pairwise_cons.mp hsorted
    rw [List.dropWhile_cons] at hp
    by_cases ha : a.sequence < v
    · rw [if_pos (decide_eq_true ha)] at hp
      exact ih htail p hp
    · rw [if_neg (fun hcon => ha (of_decide_eq_true hcon))] at hp
      rcases List.mem_cons.mp hp with heq | hp
      · rw [heq]
        exact Nat.le_of_not_lt ha
      · exact (Nat.le_of_not_lt ha).trans (hhead p hp)

/-- C5: an archive candidate with sequence `s` below a known per-thread
metadata sequence `v` is never parsed: discovery refuses to enqueue it, the
stale-entry cleanup removes every such entry from the (sequence-sorted)
queue, and `pickNextArchiveThread` never considers such a head. -/
theorem archive_reprocessing_filtered (v s : Nat) (hstale : s < v) :
    discoveryEnqueues (some v) s = false ∧
    (∀ q : List ArchParser,
       List.Pairwise (fun a b : ArchParser => a.sequence ≤ b.sequence) q →
       ∀ p ∈ cleanupQueue (some v) q, v ≤ p.sequence) ∧
    archEligible (some v) s = false := by
  have hv0 : 0 < v := Nat.lt_of_le_of_lt (Nat.zero_le s) hstale
  have hv : v ≠ 0 := Nat.pos_iff_ne_zero.mp hv0
  refine ⟨?_, ?_, ?_⟩
  · by_cases hs : s = 0 <;> simp [discoveryEnqueues, hs, hstale]
  · intro q hsorted p hp
    simp only [cleanupQueue, if_neg hv] at hp
    exact dropWhile_stale v q hsorted p hp
  · have hne : s ≠ v := Nat.ne_of_lt hstale
    simp [archEligible, hv, hne]

/-- Sorted witness queue for the stale-cleanup clause. -/
def cexStaleQueue : List ArchParser :=
  [{ sequence := 2, firstScn := none }, { sequence := 6, firstScn := some 40 }]

theorem archive_reprocessing_filtered_witness :
    (discoveryEnqueues (some 5) 3 = false ∧
     (∀ q : List ArchParser,
        List.Pairwise (fun a b : ArchParser => a.sequence ≤ b.sequence) q →
        ∀ p ∈ cleanupQueue (some 5) q, 5 ≤ p.sequence) ∧
     archEligible (some 5) 3 = false) ∧
    cleanupQueue (some 5) cexStaleQueue = [{ sequence := 6, firstScn := some 40 }] :=
  ⟨archive_reprocessing_filtered 5 3 (by decide), by decide⟩

/-- The fixed high-water mark on the deferred-transaction queue
(`MAX_PENDING_TRANSACTIONS` in `processOnlineRedoLogs`). -/
def MAX_PENDING_TRANSACTIONS : Nat := 500

/-- Result codes of `Parser::parse` dispatched by the RAC loop. -/
inductive RedoCode
  | ok
  | finished
  | stopped
  | overwritten
  | yield
  | errorOther
deriving Repr, DecidableEq

/-- The RAC throttle condition: watermark and `lastLwnScn` both known, the
thread ahead of the watermark, and the deferred queue above the high-water
mark. -/
def throttleCond (scnWatermark lastLwnScn : Scn) (pendingSize : Nat) : Bool :=
  match scnWatermark, lastLwnScn with
  | some w, some l => decide (l > w) && decide (pendingSize > MAX_PENDING_TRANSACTIONS)
  | _, _ => false

/-- Outcome of one thread's turn in the RAC per-pass loop. -/
inductive RacBodyOutcome
  | throttledSkip
  | skippedNoParser
  | parsed (ret : RedoCode)
deriving Repr, DecidableEq

/-- One thread's turn in the RAC multi-thread loop, up to the parse call:
the throttle check comes first (skip, leaving the state marked yielded);
then `yielded` is cleared; a finished thread that finds no parser for the
new sequence after the log switch skips without parsing; otherwise the
parser runs and its code is dispatched. -/
def racThreadBody (wm lwn : Scn) (pendingSize : Nat)
    (finished : Bool) (switchFindsParser : Bool) (parseRet : RedoCode) :
    RacBodyOutcome :=
  if throttleCond wm lwn pendingSize then .throttledSkip
  else if finished && !switchFindsParser then .skippedNoParser
  else .parsed parseRet

/-- The thread's `yielded` flag after its turn. -/
def yieldedAfter (outcome : RacBodyOutcome) : Bool :=
  match outcome with
  | .throttledSkip => true
  | .skippedNoParser => false
  | .parsed r => decide (r = .yield)

/-- C6: a thread is skipped with its state marked yielded (parser not
called) exactly when the pending count exceeds 500 and its known
`lastLwnScn` exceeds the known watermark; the only other parser-skipping
outcome leaves the yielded flag cleared. -/
theorem rac_throttle_rule (wm lwn : Scn) (n : Nat) (fin sw : Bool)
    (ret : RedoCode) :
    (racThreadBody wm lwn n fin sw ret = .throttledSkip ↔
      ∃ w l, wm = some w ∧ lwn = some l ∧ w < l ∧ MAX_PENDING_TRANSACTIONS < n) ∧
    yieldedAfter .throttledSkip = true ∧
    yieldedAfter .skippedNoParser = false := by
  refine ⟨?_, rfl, rfl⟩
  have hbody : racThreadBody wm lwn n fin sw ret = .throttledSkip ↔
      throttleCond wm lwn n = true := by
    unfold racThreadBody
    rcases hc : throttleCond wm lwn n with _ | _
    · simp only [Bool.false_eq_true, if_false]
      constructor
      · intro h
        split at h <;> cases h
      · intro h
        cases h
    · simp
  rw [hbody]
  unfold throttleCond
  rcases wm with _ | w <;> rcases lwn with _ | l <;> simp

theorem rac_throttle_rule_witness :
    racThreadBody (some 3) (some 5) 501 false true RedoCode.ok =
      RacBodyOutcome.throttledSkip :=
  (rac_throttle_rule (some 3) (some 5) 501 false true RedoCode.ok).1.mpr
    ⟨3, 5, rfl, rfl, by decide, by decide⟩

/-- Outcome of the archive-open retry loop. -/
inductive ArchOpenResult
  | opened (attempt : Nat)
  | failed10009
deriving Repr, DecidableEq

/-- The archive-open retry loop of `Replicator::processArchivedRedoLogs`:
`retry` starts at `ctx->archReadTries`; each iteration attempts
`checkRedoLog() && updateRedoLog()` (`attemptOk i` stands for the i-th
attempt succeeding), raises error 10009 when an attempt fails with
`retry == 0`, and otherwise sleeps `archReadSleepUs` and decrements
`retry`. -/
def archOpenLoop (attemptOk : Nat → Bool) : Nat → Nat → ArchOpenResult
  | 0, i => if attemptOk i then .opened i else .failed10009
  | retry + 1, i =>
    if attemptOk i then .opened i else archOpenLoop attemptOk retry (i + 1)

theorem archOpenLoop_char (attemptOk : Nat → Bool) :
    ∀ retry start : Nat,
      (archOpenLoop attemptOk retry start = .failed10009 ↔
        ∀ i, start ≤ i → i ≤ start + retry → attemptOk i = false) ∧
      (∀ k, archOpenLoop attemptOk retry start = .opened k →
        start ≤ k ∧ k ≤ start + retry ∧ attemptOk k = true ∧
        ∀ j, start ≤ j → j < k → attemptOk j = false) := by
  intro retry
  induction retry with
  | zero =>
    intro start
    constructor
    · constructor
      · intro h i h1 h2
        have : i = start := Nat.le_antisymm (by omega) h1
        rw [this]
        unfold archOpenLoop at h
        rcases ha : attemptOk start with _ | _
        · rfl
        · rw [ha] at h
          simp at h
      · intro h
        unfold archOpenLoop
        rw [h start (Nat.le_refl start) (by omega)]
        rfl
    · intro k h
      unfold archOpenLoop at h
      rcases ha : attemptOk start with _ | _
      · rw [ha] at h
        simp at h
      · rw [ha] at h
        simp only [if_true] at h
        cases h
        exact ⟨Nat.le_refl _, by omega, ha, fun j h1 h2 => by omega⟩
  | succ retry ih =>
    intro start
    obtain ⟨ihf, iho⟩ := ih (start + 1)
    constructor
    · constructor
      · intro h i h1 h2
        unfold archOpenLoop at h
        rcases ha : attemptOk start with _ | _
        · rw [ha] at h
          simp only [Bool.false_eq_true, if_false] at h
          rcases Nat.eq_or_lt_of_le h1 with heq | hlt
          · rw [← heq]
            exact ha
          · exact ihf.mp h i hlt (by omega)
        · rw [ha] at h
          simp at h
      · intro h
        unfold archOpenLoop
        rw [h start (Nat.le_refl start) (by omega)]
        simp only [Bool.false_eq_true, if_false]
        exact ihf.mpr (fun i h1 h2 => h i (by omega) (by omega))
    · intro k h
      unfold archOpenLoop at h
      rcases ha : attemptOk start with _ | _
      · rw [ha] at h
        simp only [Bool.false_eq_true, if_false] at h
        obtain ⟨hk1, hk2, hk3, hk4⟩ := iho k h
        refine ⟨by omega, by omega, hk3, ?_⟩
        intro j h1 h2
        rcases Nat.eq_or_lt_of_le h1 with heq | hlt
        · rw [← heq]
          exact ha
        · exact hk4 j hlt h2
      · rw [ha] at h
        simp only [if_true] at h
        cases h
        exact ⟨Nat.le_refl _, by omega, ha, fun j h1 h2 => by omega⟩

/-- C8: the retry loop raises error 10009 iff the first attempt and all
`archReadTries` retries fail; on the first successful attempt it proceeds
to parse that archive; hence the error is never raised while a retry
remains. -/
theorem archive_open_retry (attemptOk : Nat → Bool) (archReadTries : Nat) :
    (archOpenLoop attemptOk archReadTries 0 = .failed10009 ↔
      ∀ i, i ≤ archReadTries → attemptOk i = false) ∧
    (∀ k, archOpenLoop attemptOk archReadTries 0 = .opened k →
      k ≤ archReadTries ∧ attemptOk k = true ∧
      ∀ j, j < k → attemptOk j = false) := by
  obtain ⟨hf, ho⟩ := archOpenLoop_char attemptOk archReadTries 0
  constructor
  · rw [hf]
    constructor
    · intro h i hi
      exact h i (Nat.zero_le i) (by omega)
    · intro h i _ hi
      exact h i (by omega)
  · intro k h
    obtain ⟨-, h2, h3, h4⟩ := ho k h
    exact ⟨by omega, h3, fun j hj => h4 j (Nat.zero_le j) hj⟩

/-- Witness attempts: the first two attempts fail, the third succeeds. -/
def archWAttempts : Nat → Bool := fun i => decide (2 ≤ i)

theorem archive_open_retry_witness :
    ((archOpenLoop archWAttempts 4 0 = ArchOpenResult.failed10009 ↔
        ∀ i, i ≤ 4 → archWAttempts i = false) ∧
     (∀ k, archOpenLoop archWAttempts 4 0 = ArchOpenResult.opened k →
       k ≤ 4 ∧ archWAttempts k = true ∧
       ∀ j, j < k → archWAttempts j = false)) ∧
    archOpenLoop archWAttempts 4 0 = ArchOpenResult.opened 2 :=
  ⟨archive_open_retry archWAttempts 4, by decide⟩

/-- The value written by `scnWatermark = Scn(UINT64_MAX)` at loop exit.
Modelled from the spec: the `Scn` wrapper class is not under `src/`; the
spec describes this assignment as setting the watermark "to infinity" so
that all residual pending transactions drain, hence it is a known value (the
largest 64-bit SCN), distinct from the unknown marker. -/
def MAX_SCN : Nat := 2 ^ 64 - 1

/-- State of the RAC loop relevant to the termination flush. -/
structure RacLoopState where
  deferCommitted : Bool
  scnWatermark : Scn
  pending : List CommittedTransaction
  emitted : List CommittedTransaction
deriving Repr, DecidableEq

/-- The termination flush of the RAC loop (run at the `Overwritten`
dispatch and after the `while (!ctx->softShutdown)` loop): disable
deferral, force the watermark to the maximum SCN, and emit. -/
def racFlushAll (s : RacLoopState) : RacLoopState :=
  let es := emitWatermarkedTransactions
    { scnWatermark := some MAX_SCN, pending := s.pending, emitted := s.emitted }
  { deferCommitted := false, scnWatermark := some MAX_SCN,
    pending := es.pending, emitted := es.emitted }

/-- Events of one pass of the RAC loop as seen by the pending queue: either
some thread's parse returns `Overwritten` mid-pass (after that pass's
commits entered the queue), or the pass completes, emits at its watermark,
and the loop either observes soft shutdown or continues. -/
inductive RacPassEvent
  | overwritten (cs : List CommittedTransaction)
  | pass (cs : List CommittedTransaction) (wm : Scn) (shutdownAfter : Bool)

/-- Commits a pass event adds to the deferred queue. -/
def racEventCommits : RacPassEvent → List CommittedTransaction
  | .overwritten cs => cs
  | .pass cs _ _ => cs

/-- The RAC online loop of `processOnlineRedoLogs` abstracted over per-pass
events: `Overwritten` triggers the termination flush and returns; a
completed pass emits at the current watermark and exits through the
termination flush when shutdown is observed; the event list running out
stands for the loop guard observing `softShutdown`. -/
def racOnlineLoop : RacLoopState → List RacPassEvent → RacLoopState
  | s, [] => racFlushAll s
  | s, .overwritten cs :: _ => racFlushAll { s with pending := s.pending ++ cs }
  | s, .pass cs wm sd :: rest =>
    let es := emitWatermarkedTransactions
      { scnWatermark := wm, pending := s.pending ++ cs, emitted := s.emitted }
    let s' : RacLoopState :=
      { s with scnWatermark := wm, pending := es.pending, emitted := es.emitted }
    if sd then racFlushAll s' else racOnlineLoop s' rest

theorem racFlushAll_spec (s : RacLoopState)
    (hb : ∀ c ∈ s.pending, c.commitScn ≤ MAX_SCN) :
    (racFlushAll s).deferCommitted = false ∧
    (racFlushAll s).scnWatermark = some MAX_SCN ∧
    (racFlushAll s).pending = [] ∧
    (racFlushAll s).emitted = s.emitted ++ List.insertionSort ctLe s.pending := by
  have hpart1 : s.pending.filter (fun c => decide (c.commitScn ≤ MAX_SCN)) = s.pending := by
    rw [List.filter_eq_self]
    intro c hc
    exact decide_eq_true (hb c hc)
  have hpart2 :
      s.pending.filter (not ∘ fun c => decide (c.commitScn ≤ MAX_SCN)) = [] := by
    rw [List.filter_eq_nil_iff]
    intro c hc
    simp [hb c hc]
  unfold racFlushAll emitWatermarkedTransactions drainPendingBelow
  simp only [List.partition_eq_filter_filter, hpart1, hpart2]
  exact ⟨trivial, trivial, trivial, trivial⟩

theorem racOnlineLoop_flushes (events : List RacPassEvent) :
    ∀ s : RacLoopState,
      (∀ c ∈ s.pending, c.commitScn ≤ MAX_SCN) →
      (∀ e ∈ events, ∀ c ∈ racEventCommits e, c.commitScn ≤ MAX_SCN) →
      (racOnlineLoop s events).deferCommitted = false ∧
      (racOnlineLoop s events).scnWatermark = some MAX_SCN ∧
      (racOnlineLoop s events).pending = [] := by
  induction events with
  | nil =>
    intro s hs _
    obtain ⟨h1, h2, h3, -⟩ := racFlushAll_spec s hs
    exact ⟨h1, h2, h3⟩
  | cons e rest ih =>
    intro s hs hev
    rcases e with cs | ⟨cs, wm, sd⟩
    · have hall : ∀ c ∈ s.pending ++ cs, c.commitScn ≤ MAX_SCN := by
        intro c hc
        rcases List.mem_append.mp hc with hc | hc
        · exact hs c hc
        · exact hev _ (List.mem_cons_self _ _) c hc
      obtain ⟨h1, h2, h3, -⟩ :=
        racFlushAll_spec { s with pending := s.pending ++ cs } hall
      exact ⟨h1, h2, h3⟩
    · have hall : ∀ c ∈ s.pending ++ cs, c.commitScn ≤ MAX_SCN := by
        intro c hc
        rcases List.mem_append.mp hc with hc | hc
        · exact hs c hc
        · exact hev _ (List.mem_cons_self _ _) c hc
      have hs' : ∀ c ∈ (emitWatermarkedTransactions
          { scnWatermark := wm, pending := s.pending ++ cs,
            emitted := s.emitted }).pending, c.commitScn ≤ MAX_SCN := by
        intro c hc
        rcases wm with _ | w
        · exact hall c hc
        · simp only [emitWatermarkedTransactions] at hc
          exact hall c (drain_mem_right hc).1
      unfold racOnlineLoop
      rcases sd with _ | _
      · simp only [Bool.false_eq_true, if_false]
        exact ih _ hs' (fun e he => hev e (List.mem_cons_of_mem _ he))
      · simp only [if_true]
        obtain ⟨h1, h2, h3, -⟩ := racFlushAll_spec
          { s with scnWatermark := wm,
                   pending := (emitWatermarkedTransactions
                     { scnWatermark := wm, pending := s.pending ++ cs,
                       emitted := s.emitted }).pending,
                   emitted := (emitWatermarkedTransactions
                     { scnWatermark := wm, pending := s.pending ++ cs,
                       emitted := s.emitted }).emitted } hs'
        exact ⟨h1, h2, h3⟩

/-- C7: whenever the RAC multi-thread loop terminates — a parse returning
`Overwritten`, or soft shutdown observed — deferral is disabled, the
watermark is set to the maximum SCN, and `emitWatermarkedTransactions`
drains the queue: the pending queue is empty on return, and the final flush
emits (flushes then purges) exactly the residual pending transactions. -/
theorem rac_loop_termination_flush (events : List RacPassEvent)
    (s : RacLoopState)
    (hs : ∀ c ∈ s.pending, c.commitScn ≤ MAX_SCN)
    (hev : ∀ e ∈ events, ∀ c ∈ racEventCommits e, c.commitScn ≤ MAX_SCN) :
    ((racOnlineLoop s events).deferCommitted = false ∧
     (racOnlineLoop s events).scnWatermark = some MAX_SCN ∧
     (racOnlineLoop s events).pending = []) ∧
    (∀ s' : RacLoopState, (∀ c ∈ s'.pending, c.commitScn ≤ MAX_SCN) →
      (racFlushAll s').pending = [] ∧
      (racFlushAll s').emitted = s'.emitted ++ List.insertionSort ctLe s'.pending) := by
  refine ⟨racOnlineLoop_flushes events s hs hev, ?_⟩
  intro s' hs'
  obtain ⟨-, -, h3, h4⟩ := racFlushAll_spec s' hs'
  exact ⟨h3, h4⟩

/-- C7 witness event list: one quiet pass, then shutdown. -/
def racWEvents : List RacPassEvent :=
  [RacPassEvent.pass [] (some 10) false]

/-- C7 witness start state: deferral on, one pending transaction. -/
def racWLoopState : RacLoopState :=
  { deferCommitted := true, scnWatermark := none,
    pending := [{ xid := 4, commitScn := 20, lwnScn := 20, thread := 1,
                  rollback := false, shutdownMarker := false }],
    emitted := [] }

theorem rac_loop_termination_flush_witness :
    (((racOnlineLoop racWLoopState racWEvents).deferCommitted = false ∧
      (racOnlineLoop racWLoopState racWEvents).scnWatermark = some MAX_SCN ∧
      (racOnlineLoop racWLoopState racWEvents).pending = []) ∧
     (∀ s' : RacLoopState, (∀ c ∈ s'.pending, c.commitScn ≤ MAX_SCN) →
       (racFlushAll s').pending = [] ∧
       (racFlushAll s').emitted = s'.emitted ++ List.insertionSort ctLe s'.pending)) :=
  rac_loop_termination_flush racWEvents racWLoopState
    (by decide) (by decide)

/-- The guard of one `Replicator::applyMapping` iteration for a pair
`(source, target)`: the source length fits, the rewritten length stays
below `Ctx::MAX_PATH_LENGTH - 1` (the constant lives outside `src/` and is
kept as the explicit `maxLen` argument), and `memcmp` finds the source at
the start of the path. -/
def mapMatch (maxLen : Nat) (source target path : List Char) : Bool :=
  decide (source.length ≤ path.length) &&
  decide (path.length - source.length + target.length < maxLen - 1) &&
  source.isPrefixOf path

/-- `Replicator::applyMapping`: the first pair whose guard holds rewrites
the path prefix and the loop breaks; otherwise the path is unchanged. -/
def applyMapping (maxLen : Nat) :
    List (List Char × List Char) → List Char → List Char
  | [], path => path
  | (s, t) :: rest, path =>
    if mapMatch maxLen s t path then t ++ path.drop s.length
    else applyMapping maxLen rest path

/-- The inverse mapping list: every pair reversed. -/
def invMapping (l : List (List Char × List Char)) :
    List (List Char × List Char) :=
  l.map (fun p => (p.2, p.1))

theorem isPrefixOf_exists {s p : List Char} (h : s.isPrefixOf p = true) :
    ∃ r, s ++ r = p := by
  induction s generalizing p with
  | nil => exact ⟨p, rfl⟩
  | cons a as ih =>
    rcases p with _ | ⟨b, bs⟩
    · simp [List.isPrefixOf] at h
    · simp only [List.isPrefixOf, Bool.and_eq_true, beq_iff_eq] at h
      obtain ⟨rfl, h2⟩ := h
      obtain ⟨r, hr⟩ := ih h2
      exact ⟨r, by rw [List.cons_append, hr]⟩

theorem isPrefixOf_append (s r : List Char) : s.isPrefixOf (s ++ r) = true := by
  induction s with
  | nil => simp [List.isPrefixOf]
  | cons a as ih => simp [List.isPrefixOf, ih]

theorem applyMapping_cons (maxLen : Nat) (s t : List Char)
    (rest : List (List Char × List Char)) (path : List Char) :
    applyMapping maxLen ((s, t) :: rest) path =
      if mapMatch maxLen s t path then t ++ path.drop s.length
      else applyMapping maxLen rest path := rfl

/-- C9 counterexample mapping: the single pure prefix substitution
`a -> b`. -/
def cexMapping : List (List Char × List Char) := [([ 'a' ], [ 'b' ])]

/-- C9 counterexample: on the path `"b"` the mapping `a -> b` does not
apply (the path is unchanged), but the inverse mapping `b -> a` does apply
to the unchanged path, producing `"a"` instead of restoring `"b"` — the
involution fails. -/
theorem applyMapping_involution_counterexample :
    applyMapping 2048 (invMapping cexMapping)
        (applyMapping 2048 cexMapping [ 'b' ]) = [ 'a' ] ∧
    ([ 'a' ] : List Char) ≠ [ 'b' ] := by decide

/-- Sufficient condition for the round trip: walking the list in order,
some pair's guard holds on the path, and every earlier pair's reversed
guard fails on the image produced by the remaining pairs. -/
def roundtripSafe (maxLen : Nat) :
    List (List Char × List Char) → List Char → Bool
  | [], _ => false
  | (s, t) :: rest, path =>
    if mapMatch maxLen s t path then true
    else !(mapMatch maxLen t s (applyMapping maxLen rest path)) &&
         roundtripSafe maxLen rest path

/-- C9 amended: applying the mapping and then the reversed list restores
the path whenever the path fits the length bound, some pair applies to it,
and no earlier pair's reversed form matches the rewritten path (in
particular, for a single prefix pair that matches the path); without the
match conditions the involution fails. -/
theorem applyMapping_roundtrip (maxLen : Nat) :
    ∀ (l : List (List Char × List Char)) (path : List Char),
      path.length < maxLen - 1 →
      roundtripSafe maxLen l path = true →
      applyMapping maxLen (invMapping l) (applyMapping maxLen l path) = path := by
  intro l
  induction l with
  | nil =>
    intro path hp hsafe
    cases hsafe
  | cons pr rest ih =>
    intro path hp hsafe
    rcases pr with ⟨s, t⟩
    have hinv : invMapping ((s, t) :: rest) = (t, s) :: invMapping rest := rfl
    by_cases hm : mapMatch maxLen s t path = true
    · have hm' := hm
      unfold mapMatch at hm'
      rw [Bool.and_eq_true] at hm'
      obtain ⟨r, hr⟩ := isPrefixOf_exists hm'.2
      have hdrop : path.drop s.length = r := by
        rw [← hr, List.drop_left]
      have hlen : path.length = s.length + r.length := by
        rw [← hr, List.length_append]
      have hts : mapMatch maxLen t s (t ++ r) = true := by
        unfold mapMatch
        rw [Bool.and_eq_true, Bool.and_eq_true]
        refine ⟨⟨decide_eq_true (by simp), decide_eq_true ?_⟩, ?_⟩
        · rw [List.length_append]
          omega
        · exact isPrefixOf_append t r
      rw [applyMapping_cons, if_pos hm, hdrop, hinv, applyMapping_cons, if_pos hts,
        List.drop_left]
      exact hr
    · unfold roundtripSafe at hsafe
      rw [if_neg hm] at hsafe
      rw [Bool.and_eq_true] at hsafe
      obtain ⟨hback, hrest⟩ := hsafe
      have hbackf : mapMatch maxLen t s (applyMapping maxLen rest path) = false := by
        rcases hmb : mapMatch maxLen t s (applyMapping maxLen rest path) with _ | _
        · rfl
        · rw [hmb] at hback
          simp at hback
      rw [applyMapping_cons, if_neg hm, hinv, applyMapping_cons,
        if_neg (by rw [hbackf]; exact Bool.false_ne_true)]
      exact ih path hp hrest

/-- C9 witness mapping with two pairs; the second applies to the witness
path. -/
def rtWMapping : List (List Char × List Char) :=
  [([ 'a' ], [ 'b' ]), ([ 'c' ], [ 'd' ])]

theorem applyMapping_roundtrip_witness :
    applyMapping 2048 (invMapping rtWMapping)
        (applyMapping 2048 rtWMapping [ 'c', 'x' ]) = [ 'c', 'x' ] :=
  applyMapping_roundtrip 2048 rtWMapping [ 'c', 'x' ] (by decide) (by decide)

/-- One database incarnation (`common/DbIncarnation.h`, fields used by
`updateResetlogs`). -/
structure DbIncarnation where
  resetlogs : Nat
  resetlogsScn : Scn
  incarnation : Nat
  priorIncarnation : Nat
deriving Repr, DecidableEq

/-- Failure modes of `updateResetlogs`: dereferencing a null
`dbIncarnationCurrent`, or the guarded error 10045. -/
inductive RlError
  | nullDeref
  | resetlogsNotFound10045
deriving Repr, DecidableEq

/-- Metadata state read by `updateResetlogs`. -/
structure ResetlogsMeta where
  dbIncarnations : List DbIncarnation
  dbIncarnationCurrent : Option DbIncarnation
  resetlogs : Nat
  nextScn : Scn
deriving Repr, DecidableEq

/-- Result of `updateResetlogs` when no error occurs. -/
inductive ResetlogsOutcome
  | switched (newResetlogs : Nat)
  | unchanged
deriving Repr, DecidableEq

/-- The first loop of `updateResetlogs`: select the incarnation whose
`resetlogs` matches the metadata's. -/
def findIncarnation (l : List DbIncarnation) (r : Nat) : Option DbIncarnation :=
  l.find? (fun oi => decide (oi.resetlogs = r))

/-- The resetlogs-change scan of `updateResetlogs`, with the C++
short-circuit evaluation order: for each incarnation, the condition
`oi->resetlogsScn == metadata->nextScn` is evaluated first, and only when
it holds is `metadata->dbIncarnationCurrent->resetlogs` dereferenced —
before the null check guarding error 10045 is ever reached. -/
def resetlogsScanLoop (cur : Option DbIncarnation) (m : ResetlogsMeta) :
    List DbIncarnation → Except RlError (Option Nat)
  | [] => .ok none
  | oi :: rest =>
    if oi.resetlogsScn = m.nextScn then
      match cur with
      | none => .error .nullDeref
      | some c =>
        if c.resetlogs = m.resetlogs ∧ oi.priorIncarnation = c.incarnation then
          .ok (some oi.resetlogs)
        else resetlogsScanLoop cur m rest
    else resetlogsScanLoop cur m rest

/-- `Replicator::updateResetlogs`: select the current incarnation, run the
resetlogs-change scan, then return; the 10045 error is raised only after
the scan, when the incarnation list is non-empty and no current incarnation
was found. -/
def updateResetlogs (m : ResetlogsMeta) : Except RlError ResetlogsOutcome :=
  let cur :=
    match findIncarnation m.dbIncarnations m.resetlogs with
    | some oi => some oi
    | none => m.dbIncarnationCurrent
  match resetlogsScanLoop cur m m.dbIncarnations with
  | .error e => .error e
  | .ok (some r) => .ok (.switched r)
  | .ok none =>
    if m.dbIncarnations.isEmpty then .ok .unchanged
    else
      match cur with
      | none => .error .resetlogsNotFound10045
      | some _ => .ok .unchanged

/-- C10 metadata state: `dbIncarnationCurrent` null, a non-empty
incarnation list with no entry whose `resetlogs` equals the metadata's,
and an entry whose `resetlogsScn` equals `metadata->nextScn`. -/
def cexResetlogsMeta : ResetlogsMeta :=
  { dbIncarnations :=
      [{ resetlogs := 2, resetlogsScn := some 7, incarnation := 1,
         priorIncarnation := 0 }],
    dbIncarnationCurrent := none,
    resetlogs := 1,
    nextScn := some 7 }

/-- C10: on this state `updateResetlogs` dereferences the null
`dbIncarnationCurrent` inside the resetlogs-change scan instead of reaching
the guarded 10045 branch. -/
theorem updateResetlogs_null_deref :
    cexResetlogsMeta.dbIncarnationCurrent = none ∧
    cexResetlogsMeta.dbIncarnations ≠ [] ∧
    findIncarnation cexResetlogsMeta.dbIncarnations cexResetlogsMeta.resetlogs
      = none ∧
    updateResetlogs cexResetlogsMeta = .error .nullDeref ∧
    updateResetlogs cexResetlogsMeta ≠ .error .resetlogsNotFound10045 := by
  refine ⟨rfl, ?_, rfl, rfl, ?_⟩
  · intro hcon
    simp [cexResetlogsMeta] at hcon
  · intro hcon
    have hval : updateResetlogs cexResetlogsMeta = .error .nullDeref := rfl
    rw [hval] at hcon
    injection hcon with h2
    cases h2

end OLR
